import Mathlib

/-!
Verification of the packet-decoder (day16.rs) and region-algebra engine
(day22.rs) of the aoc21 repository, via a shallow embedding in Lean.

Rust panics (out-of-range slicing, `unwrap`, `expect`, `assert!`) are
modelled by `Option`, `none` standing for an aborted computation.
Machine integers (`i64`) are modelled by `Int`; the claims under study
stay far from the wrap-around range, and the `i64::MIN`/`i64::MAX`
constants used by day22's "world" region are kept explicitly.
-/

namespace Day16

/-- Rust `char::to_digit(16)`: the value of a hexadecimal digit,
accepting `0-9`, `a-f` and `A-F`; `none` for any other character. -/
def toDigit16 (c : Char) : Option Nat :=
  if '0' ≤ c ∧ c ≤ '9' then some (c.toNat - '0'.toNat)
  else if 'a' ≤ c ∧ c ≤ 'f' then some (10 + (c.toNat - 'a'.toNat))
  else if 'A' ≤ c ∧ c ≤ 'F' then some (10 + (c.toNat - 'A'.toNat))
  else none

/-- `hex_to_bits`: expand one hex character into its 4 bits, most
significant first (`(0..4).rev()`); `none` models the `expect` panic on
an invalid digit. -/
def hex_to_bits (c : Char) : Option (List Bool) :=
  (toDigit16 c).map (fun num => [3, 2, 1, 0].map (fun bit => num &&& (1 <<< bit) != 0))

/-- The `bits` input generator: concatenate the bit expansions of all
characters (`flat_map`); `none` models the panic on the first bad character. -/
def bitsOf : List Char → Option (List Bool)
  | [] => some []
  | c :: cs =>
    match hex_to_bits c, bitsOf cs with
    | some b, some rest => some (b ++ rest)
    | _, _ => none

/-- `to_integer`: MSB-first fold of a bit slice, `(acc << 1) | bit`. -/
def to_integer (b : List Bool) : Int :=
  b.foldl (fun acc bit => acc * 2 + (if bit then 1 else 0)) 0

mutual

inductive PacketData where
  | Literal : Int → PacketData
  | Packets : List Packet → PacketData

inductive Packet where
  | mk : Int → Int → PacketData → Packet

end

/-- `version` field accessor. -/
def Packet.version : Packet → Int
  | .mk v _ _ => v

/-- `type_id` field accessor. -/
def Packet.type_id : Packet → Int
  | .mk _ t _ => t

/-- `data` field accessor. -/
def Packet.data : Packet → PacketData
  | .mk _ _ d => d

/-- `Packet::literal`; `none` models the panic on a composite packet. -/
def Packet.literal : Packet → Option Int
  | .mk _ _ (.Literal v) => some v
  | .mk _ _ (.Packets _) => none

/-- `Packet::packets`; `none` models the panic on a literal packet. -/
def Packet.packets : Packet → Option (List Packet)
  | .mk _ _ (.Literal _) => none
  | .mk _ _ (.Packets ps) => some ps

/-- The scan `(0..).step_by(5).find(|b| !bits[b.1])` of `parse_literal`:
probe indices `i, i+5, …` for the first group whose leading bit is 0;
`none` models the index panic when the probe runs off the slice.  The
first argument is a step counter that makes the recursion structural;
since every probe advances `i`, `bits.length + 1` steps always suffice
(`findGroupEnd` below instantiates it so). -/
def findGroupEndGo : Nat → List Bool → Nat → Option Nat
  | 0, _, _ => none
  | steps + 1, bits, i =>
    if h : i < bits.length then
      if bits.get ⟨i, h⟩ then findGroupEndGo steps bits (i + 5) else some i
    else none
termination_by structural steps _ _ => steps

/-- The probe scan of `parse_literal`, with enough steps to be exact. -/
def findGroupEnd (bits : List Bool) (i : Nat) : Option Nat :=
  findGroupEndGo (bits.length + 1) bits i

/-- The `chunks_exact(5)` fold of `parse_literal`: drop each group's
leading bit and fold the 4-bit group values MSB-first, `(acc << 4) | num`. -/
def literalValue : List Bool → Int → Int
  | _b0 :: b1 :: b2 :: b3 :: b4 :: rest, acc =>
    literalValue rest (acc * 16 + to_integer [b1, b2, b3, b4])
  | _, acc => acc

/-- `parse_literal`: returns the number of bits consumed and the value;
`none` models the slicing panics of the original. -/
def parse_literal (bits : List Bool) : Option (Nat × Int) :=
  (findGroupEnd bits 0).bind (fun idx =>
    if idx + 5 ≤ bits.length then
      some (idx + 5, literalValue (bits.take (idx + 5)) 0)
    else none)

mutual

/-- `parse_packet`, with explicit fuel for the mutual recursion; `none`
models a slicing panic (or fuel exhaustion, which never happens for the
runs considered). Returns the bits consumed and the parsed packet. -/
def parse_packet : Nat → List Bool → Option (Nat × Packet)
  | 0, _ => none
  | fuel + 1, bits =>
    if bits.length < 6 then none else
    let version := to_integer (bits.take 3)
    let type_id := to_integer ((bits.drop 3).take 3)
    if type_id = 4 then
      (parse_literal (bits.drop 6)).map
        (fun r => (6 + r.1, .mk version type_id (.Literal r.2)))
    else
      if bits.length < 7 then none else
      let length_id := to_integer ((bits.drop 6).take 1)
      if length_id = 0 then
        if bits.length < 22 then none else
        let num_bits := (to_integer ((bits.drop 7).take 15)).toNat
        (parse_n_bits fuel bits 22 22 num_bits).map
          (fun r => (r.1, .mk version type_id (.Packets r.2)))
      else
        if bits.length < 18 then none else
        let num_packets := (to_integer ((bits.drop 7).take 11)).toNat
        (parse_n_packets fuel bits 18 num_packets).map
          (fun r => (r.1, .mk version type_id (.Packets r.2)))
termination_by structural fuel _ => fuel

/-- `parse_n_bits`: parse child packets from absolute offset
`next_packet` while fewer than `n_bits` bits (counted from
`packet_start`) have been consumed.  Mirrors the
`while next_packet - packet_start < n_bits` loop. -/
def parse_n_bits : Nat → List Bool → Nat → Nat → Nat → Option (Nat × List Packet)
  | 0, _, _, _, _ => none
  | fuel + 1, bits, packet_start, next_packet, n_bits =>
    if next_packet - packet_start < n_bits then
      if next_packet ≤ bits.length then
        (parse_packet fuel (bits.drop next_packet)).bind (fun ip =>
          (parse_n_bits fuel bits packet_start (next_packet + ip.1) n_bits).map
            (fun r => (r.1, ip.2 :: r.2)))
      else none
    else some (next_packet, [])
termination_by structural fuel _ _ _ _ => fuel

/-- `parse_n_packets`: parse exactly `n` child packets from absolute
offset `next_packet`. -/
def parse_n_packets : Nat → List Bool → Nat → Nat → Option (Nat × List Packet)
  | 0, _, _, _ => none
  | _ + 1, _, next_packet, 0 => some (next_packet, [])
  | fuel + 1, bits, next_packet, m + 1 =>
    if next_packet ≤ bits.length then
      (parse_packet fuel (bits.drop next_packet)).bind (fun ip =>
        (parse_n_packets fuel bits (next_packet + ip.1) m).map
          (fun r => (r.1, ip.2 :: r.2)))
    else none
termination_by structural fuel _ _ _ => fuel

end

mutual

/-- `sum_packet_versions`: recursive sum of all version fields. -/
def sum_packet_versions : Packet → Int
  | .mk v _ (.Literal _) => v
  | .mk v _ (.Packets ps) => v + sum_versions_list ps

/-- Version sum of a list of packets. -/
def sum_versions_list : List Packet → Int
  | [] => 0
  | p :: ps => sum_packet_versions p + sum_versions_list ps

end

/-- Rust `Iterator::min` on the evaluated child values. -/
def listMinimum : List Int → Option Int
  | [] => none
  | v :: vs => some (vs.foldl min v)

/-- Rust `Iterator::max` on the evaluated child values. -/
def listMaximum : List Int → Option Int
  | [] => none
  | v :: vs => some (vs.foldl max v)

/-- The comparison result for type ids 5/6/7 (`>`/`<`/`==`), as 1 or 0. -/
def cmpValue (t x y : Int) : Int :=
  if t = 5 then (if x > y then 1 else 0)
  else if t = 6 then (if x < y then 1 else 0)
  else (if x = y then 1 else 0)

mutual

/-- `process_packet`: evaluate a packet; `none` models a panic
(`packets()` on a literal, `literal()` on a composite, `unwrap` on an
empty min/max, `assert_eq!(packets.len(), 2)` on comparisons).  The
match on `type_id` is split on the payload first: a literal payload
evaluates only under type 4 (every operator arm starts with the
panicking `packets()` accessor), and a composite payload fails under
type 4 (the panicking `literal()` accessor). -/
def process_packet : Packet → Option Int
  | .mk _ t (.Literal v) => if t = 4 then some v else none
  | .mk _ t (.Packets ps) =>
    if t = 0 then (process_list ps).map (fun vs => vs.foldl (· + ·) 0)
    else if t = 1 then (process_list ps).map (fun vs => vs.foldl (· * ·) 1)
    else if t = 2 then (process_list ps).bind listMinimum
    else if t = 3 then (process_list ps).bind listMaximum
    else if t = 5 ∨ t = 6 ∨ t = 7 then
      match ps with
      | [a, b] =>
        (process_packet a).bind (fun x =>
          (process_packet b).map (fun y => cmpValue t x y))
      | _ => none
    else none

/-- Evaluate a list of child packets, propagating the first failure
(mirrors a panic inside an iterator chain). -/
def process_list : List Packet → Option (List Int)
  | [] => some []
  | p :: ps =>
    (process_packet p).bind (fun v => (process_list ps).map (fun vs => v :: vs))

end

/-- `part1`: parse the outermost packet and sum all versions. -/
def part1 (fuel : Nat) (bits : List Bool) : Option Int :=
  (parse_packet fuel bits).map (fun r => sum_packet_versions r.2)

/-- `part2`: parse the outermost packet and evaluate it. -/
def part2 (fuel : Nat) (bits : List Bool) : Option Int :=
  (parse_packet fuel bits).bind (fun r => process_packet r.2)

/-! ### Claims C10 and C8: evaluation arities -/

/-- C10: evaluating a sum packet (type 0) with zero children yields 0, and a
product packet (type 1) with zero children yields 1 (the empty-fold
identities); neither fails, in contrast to minimum/maximum. -/
theorem c10_empty_fold_identities (v : Int) :
    process_packet (.mk v 0 (.Packets [])) = some 0 ∧
    process_packet (.mk v 1 (.Packets [])) = some 1 := by
  constructor <;> simp [process_packet, process_list]

/-- C8: evaluating a minimum (type 2) or maximum (type 3) packet with zero
children, or a comparison packet (types 5/6/7) whose child count is not
exactly 2, fails (returns `none`, the model of the evaluation panic) rather
than returning a numeric result. -/
theorem c8_arity_failures (v t : Int) (l : List Packet)
    (ht : t = 5 ∨ t = 6 ∨ t = 7) (hl : l.length ≠ 2) :
    process_packet (.mk v 2 (.Packets [])) = none ∧
    process_packet (.mk v 3 (.Packets [])) = none ∧
    process_packet (.mk v t (.Packets l)) = none := by
  refine ⟨by simp [process_packet, process_list, listMinimum],
          by simp [process_packet, process_list, listMaximum], ?_⟩
  rcases ht with h | h | h <;> subst h <;>
    rcases l with _ | ⟨a, _ | ⟨b, _ | ⟨c, rest⟩⟩⟩ <;> simp_all [process_packet]

/-- Witness for C8 at a concrete instance (type 5, zero children). -/
theorem c8_arity_failures_witness :
    (((5:Int) = 5 ∨ (5:Int) = 6 ∨ (5:Int) = 7) ∧ ([] : List Packet).length ≠ 2) ∧
    process_packet (.mk 0 5 (.Packets [])) = none :=
  ⟨⟨Or.inl rfl, by decide⟩, (c8_arity_failures 0 5 [] (Or.inl rfl) (by decide)).2.2⟩

/-! ### Claim C4: the hexadecimal character set -/

/-- The character set `0-9A-F`, exactly as the spec sentence for C4 names it. -/
def specUppercaseHex (c : Char) : Bool :=
  decide ('0' ≤ c ∧ c ≤ '9') || decide ('A' ≤ c ∧ c ≤ 'F')

/-- Modelled from the spec, amended character set: a case-insensitive
hexadecimal digit (`0-9`, `a-f`, `A-F`). -/
def isHexDigitCI (c : Char) : Bool :=
  decide ('0' ≤ c ∧ c ≤ '9') || decide ('a' ≤ c ∧ c ≤ 'f') || decide ('A' ≤ c ∧ c ≤ 'F')

/-- Modelled from the spec: the numeric value of a hexadecimal digit. -/
def hexDigitValue (c : Char) : Nat :=
  if '0' ≤ c ∧ c ≤ '9' then c.toNat - '0'.toNat
  else if 'a' ≤ c ∧ c ≤ 'f' then 10 + (c.toNat - 'a'.toNat)
  else 10 + (c.toNat - 'A'.toNat)

/-- The spec's "4-bit most-significant-bit-first binary representation". -/
def msb4 (n : Nat) : List Bool := [n.testBit 3, n.testBit 2, n.testBit 1, n.testBit 0]

/-- Reference conversion following the spec's words (with the amended
character set): all-or-nothing, each character expanding to its 4-bit
MSB-first value, concatenated in input order. -/
def specBitExpansion (l : List Char) : Option (List Bool) :=
  if l.all isHexDigitCI then some ((l.map (fun c => msb4 (hexDigitValue c))).flatten)
  else none

/-- `n &&& (1 <<< i) != 0` is exactly bit `i` of `n`. -/
theorem and_shift_bne (n i : Nat) : (n &&& (1 <<< i) != 0) = n.testBit i := by
  have h2 := Nat.and_two_pow n i
  cases h : n.testBit i <;> rw [h] at h2 <;>
    simp [Nat.one_shiftLeft, h2, bne_iff_ne, (Nat.two_pow_pos i).ne']

/-- One character of the conversion, against the reference form. -/
theorem hex_to_bits_eq (c : Char) :
    hex_to_bits c = if isHexDigitCI c then some (msb4 (hexDigitValue c)) else none := by
  unfold hex_to_bits toDigit16 isHexDigitCI hexDigitValue msb4
  by_cases h1 : '0' ≤ c ∧ c ≤ '9'
  · simp [h1, and_shift_bne]
  · by_cases h2 : 'a' ≤ c ∧ c ≤ 'f'
    · simp [h1, h2, and_shift_bne]
    · by_cases h3 : 'A' ≤ c ∧ c ≤ 'F'
      · simp [h1, h2, h3, and_shift_bne]
      · simp [h1, h2, h3]

/-- C4 counterexample: the character `a` lies outside the claimed set
`0-9A-F`, yet the hex-to-bit conversion succeeds on it (expanding it to
binary 1010) instead of failing with a decode error. -/
theorem c4_counterexample_lowercase_accepted :
    bitsOf ['a'] = some [true, false, true, false] ∧ specUppercaseHex 'a' = false := by
  constructor <;> decide

/-- C4 (amended): hex-to-bit conversion fails iff some character is not a
case-insensitive hexadecimal digit (`0-9`, `a-f`, `A-F`); on success each
character expands to its 4-bit MSB-first representation, concatenated in
input order — i.e. it agrees with the reference `specBitExpansion`. -/
theorem c4_amended_hex_expansion (l : List Char) : bitsOf l = specBitExpansion l := by
  induction l with
  | nil => rfl
  | cons c cs ih =>
    simp only [bitsOf, hex_to_bits_eq, ih, specBitExpansion, List.all_cons,
      Bool.and_eq_true, List.map_cons, List.flatten]
    by_cases h1 : isHexDigitCI c = true <;> by_cases h2 : cs.all isHexDigitCI = true <;>
      simp [h1, h2]

/-! ### Claim C3: the 15-bit total-length framing mode -/

/-- The 33-bit input used to refute C3: an operator packet (type 0,
length-type-id 0) declaring a 15-bit total child length of 1, followed by
an 11-bit literal child — the child overruns the declared budget. -/
def exC3 : List Bool :=
  [false, false, false, false, false, false, false,
   false, false, false, false, false, false, false, false, false, false,
   false, false, false, false, true,
   false, false, false, true, false, false, false, false, false, false, false]

/-- C3 counterexample: on `exC3` the declared budget is 1 bit, but the single
child consumes 11 bits (children span bits 22..33), and parsing nevertheless
succeeds — the parser neither stops at exactly the declared total length nor
fails when a child's framing overruns the budget. -/
theorem c3_counterexample_budget_overrun_accepted :
    (to_integer ((exC3.drop 7).take 15)).toNat = 1 ∧
    parse_packet 10 exC3 =
      some (33, .mk 0 0 (.Packets [.mk 0 4 (.Literal 0)])) ∧
    (33 : Nat) - 22 ≠ 1 :=
  ⟨rfl, rfl, by decide⟩

/-- C3 (amended): in the 15-bit total-length mode the parser reads the
declared budget and parses children sequentially until **at least** that
many bits have been consumed; a final child may overrun the budget without
any error, so the declared length is only a lower bound on the bits the
children span. -/
theorem c3_amended_budget_lower_bound (fuel : Nat) (bits : List Bool)
    (packet_start next_packet n_bits fin : Nat) (ps : List Packet)
    (h : parse_n_bits fuel bits packet_start next_packet n_bits = some (fin, ps)) :
    n_bits ≤ fin - packet_start := by
  induction fuel generalizing next_packet ps with
  | zero => simp [parse_n_bits] at h
  | succ fuel ih =>
    rw [parse_n_bits] at h
    by_cases hc : next_packet - packet_start < n_bits
    · rw [if_pos hc] at h
      by_cases hl : next_packet ≤ bits.length
      · rw [if_pos hl] at h
        cases hp : parse_packet fuel (bits.drop next_packet) with
        | none => rw [hp] at h; simp at h
        | some ip =>
          rw [hp] at h
          simp only [Option.some_bind] at h
          cases hq : parse_n_bits fuel bits packet_start (next_packet + ip.1) n_bits with
          | none => rw [hq] at h; simp at h
          | some r =>
            rw [hq] at h
            have h' : some (r.1, ip.2 :: r.2) = some (fin, ps) := h
            cases h'
            exact ih _ _ (by rw [hq])
      · rw [if_neg hl] at h; simp at h
    · rw [if_neg hc] at h
      simp only [Option.some.injEq, Prod.mk.injEq] at h
      omega

/-- Witness for the amended C3 on the concrete `exC3` run. -/
theorem c3_amended_witness :
    parse_n_bits 9 exC3 22 22 1 = some (33, [.mk 0 4 (.Literal 0)]) ∧
    (1 : Nat) ≤ 33 - 22 :=
  ⟨rfl, c3_amended_budget_lower_bound 9 exC3 22 22 1 33 _ rfl⟩


/-! ### Claim C7: trailing bits are ignored -/

/-- The literal group probe is unchanged by appending bits to the stream. -/
theorem findGroupEndGo_append (k : Nat) (s t : List Bool) (i idx : Nat)
    (h : findGroupEndGo k s i = some idx) : findGroupEndGo k (s ++ t) i = some idx := by
  induction k generalizing i with
  | zero => simp [findGroupEndGo] at h
  | succ k ih =>
    rw [findGroupEndGo] at h
    rw [findGroupEndGo]
    by_cases hi : i < s.length
    · have hi2 : i < (s ++ t).length := by rw [List.length_append]; omega
      rw [dif_pos hi] at h
      rw [dif_pos hi2, List.get_append i hi]
      by_cases hb : s.get ⟨i, hi⟩ = true
      · rw [if_pos hb] at h; rw [if_pos hb]; exact ih _ h
      · rw [if_neg hb] at h; rw [if_neg hb]; exact h
    · rw [dif_neg hi] at h; cases h

/-- The literal group probe succeeds with any larger step allowance. -/
theorem findGroupEndGo_mono (k k' : Nat) (s : List Bool) (i idx : Nat) (hk : k ≤ k')
    (h : findGroupEndGo k s i = some idx) : findGroupEndGo k' s i = some idx := by
  induction k generalizing k' i with
  | zero => simp [findGroupEndGo] at h
  | succ k ih =>
    obtain ⟨k', rfl⟩ : ∃ m, k' = m + 1 := ⟨k' - 1, by omega⟩
    rw [findGroupEndGo] at h
    rw [findGroupEndGo]
    by_cases hi : i < s.length
    · rw [dif_pos hi] at h
      rw [dif_pos hi]
      by_cases hb : s.get ⟨i, hi⟩ = true
      · rw [if_pos hb] at h; rw [if_pos hb]; exact ih _ _ (by omega) h
      · rw [if_neg hb] at h; rw [if_neg hb]; exact h
    · rw [dif_neg hi] at h; cases h

/-- `findGroupEnd` is unchanged by appending bits to the stream. -/
theorem findGroupEnd_append (s t : List Bool) (i idx : Nat)
    (h : findGroupEnd s i = some idx) : findGroupEnd (s ++ t) i = some idx := by
  unfold findGroupEnd at h ⊢
  exact findGroupEndGo_mono _ _ _ _ _ (by rw [List.length_append]; omega)
    (findGroupEndGo_append _ s t _ _ h)

/-- `parse_literal` is unchanged by appending bits to the stream. -/
theorem parse_literal_append (s t : List Bool) (r : Nat × Int)
    (h : parse_literal s = some r) : parse_literal (s ++ t) = some r := by
  unfold parse_literal at h ⊢
  cases hf : findGroupEnd s 0 with
  | none => rw [hf] at h; cases h
  | some idx =>
    rw [hf] at h
    rw [findGroupEnd_append s t 0 idx hf]
    simp only [Option.some_bind] at h ⊢
    by_cases hle : idx + 5 ≤ s.length
    · rw [if_pos hle] at h
      have hle2 : idx + 5 ≤ (s ++ t).length := by rw [List.length_append]; omega
      rw [if_pos hle2, List.take_append_of_le_length hle]
      exact h
    · rw [if_neg hle] at h; cases h

/-- All three parse functions are unchanged by appending bits after the
stream: the parser never looks at bits beyond those it consumes. -/
theorem parse_append_all (fuel : Nat) :
    (∀ s t : List Bool, ∀ r, parse_packet fuel s = some r →
        parse_packet fuel (s ++ t) = some r) ∧
    (∀ s t : List Bool, ∀ a b c r, parse_n_bits fuel s a b c = some r →
        parse_n_bits fuel (s ++ t) a b c = some r) ∧
    (∀ s t : List Bool, ∀ a b r, parse_n_packets fuel s a b = some r →
        parse_n_packets fuel (s ++ t) a b = some r) := by
  induction fuel with
  | zero =>
    refine ⟨?_, ?_, ?_⟩ <;> intros s t <;> intros <;>
      simp_all [parse_packet, parse_n_bits, parse_n_packets]
  | succ fuel ih =>
    obtain ⟨ihp, ihb, ihn⟩ := ih
    refine ⟨?_, ?_, ?_⟩
    · intro s t r h
      rw [parse_packet] at h
      rw [parse_packet]
      by_cases h6 : s.length < 6
      · rw [if_pos h6] at h; cases h
      · have h6' : ¬ (s ++ t).length < 6 := by rw [List.length_append]; omega
        rw [if_neg h6] at h
        rw [if_neg h6']
        have e3 : (s ++ t).take 3 = s.take 3 :=
          List.take_append_of_le_length (by omega)
        have ed3 : ((s ++ t).drop 3).take 3 = (s.drop 3).take 3 := by
          rw [List.drop_append_of_le_length (by omega),
            List.take_append_of_le_length (by rw [List.length_drop]; omega)]
        have ed6 : (s ++ t).drop 6 = s.drop 6 ++ t :=
          List.drop_append_of_le_length (by omega)
        rw [e3, ed3, ed6]
        simp only [] at h ⊢
        by_cases ht : to_integer ((s.drop 3).take 3) = 4
        · rw [if_pos ht] at h
          rw [if_pos ht]
          cases hpl : parse_literal (s.drop 6) with
          | none => rw [hpl] at h; cases h
          | some pr =>
            rw [hpl] at h
            rw [parse_literal_append _ t _ hpl]
            exact h
        · rw [if_neg ht] at h
          rw [if_neg ht]
          by_cases h7 : s.length < 7
          · rw [if_pos h7] at h; cases h
          · have h7' : ¬ (s ++ t).length < 7 := by rw [List.length_append]; omega
            rw [if_neg h7] at h
            rw [if_neg h7']
            have ed61 : (s.drop 6 ++ t).take 1 = (s.drop 6).take 1 :=
              List.take_append_of_le_length (by rw [List.length_drop]; omega)
            rw [ed61]
            by_cases hl : to_integer ((s.drop 6).take 1) = 0
            · rw [if_pos hl] at h
              rw [if_pos hl]
              by_cases h22 : s.length < 22
              · rw [if_pos h22] at h; cases h
              · have h22' : ¬ (s ++ t).length < 22 := by rw [List.length_append]; omega
                rw [if_neg h22] at h
                rw [if_neg h22']
                have ed715 : ((s ++ t).drop 7).take 15 = (s.drop 7).take 15 := by
                  rw [List.drop_append_of_le_length (by omega),
                    List.take_append_of_le_length (by rw [List.length_drop]; omega)]
                rw [ed715]
                cases hnb : parse_n_bits fuel s 22 22
                    (to_integer ((s.drop 7).take 15)).toNat with
                | none => rw [hnb] at h; cases h
                | some nr =>
                  rw [hnb] at h
                  rw [ihb s t 22 22 _ _ hnb]
                  exact h
            · rw [if_neg hl] at h
              rw [if_neg hl]
              by_cases h18 : s.length < 18
              · rw [if_pos h18] at h; cases h
              · have h18' : ¬ (s ++ t).length < 18 := by rw [List.length_append]; omega
                rw [if_neg h18] at h
                rw [if_neg h18']
                have ed711 : ((s ++ t).drop 7).take 11 = (s.drop 7).take 11 := by
                  rw [List.drop_append_of_le_length (by omega),
                    List.take_append_of_le_length (by rw [List.length_drop]; omega)]
                rw [ed711]
                cases hnp : parse_n_packets fuel s 18
                    (to_integer ((s.drop 7).take 11)).toNat with
                | none => rw [hnp] at h; cases h
                | some nr =>
                  rw [hnp] at h
                  rw [ihn s t 18 _ _ hnp]
                  exact h
    · intro s t a b c r h
      rw [parse_n_bits] at h
      rw [parse_n_bits]
      by_cases hc : b - a < c
      · rw [if_pos hc] at h
        rw [if_pos hc]
        by_cases hbl : b ≤ s.length
        · have hbl2 : b ≤ (s ++ t).length := by rw [List.length_append]; omega
          rw [if_pos hbl] at h
          rw [if_pos hbl2, List.drop_append_of_le_length hbl]
          cases hp : parse_packet fuel (s.drop b) with
          | none => rw [hp] at h; cases h
          | some ip =>
            rw [hp] at h
            rw [ihp (s.drop b) t _ hp]
            simp only [Option.some_bind] at h ⊢
            cases hq : parse_n_bits fuel s a (b + ip.1) c with
            | none => rw [hq] at h; cases h
            | some nr =>
              rw [hq] at h
              rw [ihb s t a (b + ip.1) c _ hq]
              exact h
        · rw [if_neg hbl] at h; cases h
      · rw [if_neg hc] at h
        rw [if_neg hc]
        exact h
    · intro s t a b r h
      cases b with
      | zero => exact h
      | succ m =>
        rw [parse_n_packets] at h
        rw [parse_n_packets]
        by_cases hbl : a ≤ s.length
        · have hbl2 : a ≤ (s ++ t).length := by rw [List.length_append]; omega
          rw [if_pos hbl] at h
          rw [if_pos hbl2, List.drop_append_of_le_length hbl]
          cases hp : parse_packet fuel (s.drop a) with
          | none => rw [hp] at h; cases h
          | some ip =>
            rw [hp] at h
            rw [ihp (s.drop a) t _ hp]
            simp only [Option.some_bind] at h ⊢
            cases hq : parse_n_packets fuel s (a + ip.1) m with
            | none => rw [hq] at h; cases h
            | some nr =>
              rw [hq] at h
              rw [ihn s t (a + ip.1) m _ hq]
              exact h
        · rw [if_neg hbl] at h
          cases h

/-- C7: for a bit stream beginning with one complete valid packet, appending
any trailing bits changes neither the parse result nor the version-sum
(part 1) nor the evaluated value (part 2): both operations ignore all bits
after the outermost packet. -/
theorem c7_trailing_bits_ignored (fuel : Nat) (s t : List Bool) (n : Nat) (p : Packet)
    (h : parse_packet fuel s = some (n, p)) :
    parse_packet fuel (s ++ t) = some (n, p) ∧
    part1 fuel (s ++ t) = part1 fuel s ∧
    part2 fuel (s ++ t) = part2 fuel s := by
  have hp := (parse_append_all fuel).1 s t _ h
  refine ⟨hp, ?_, ?_⟩
  · unfold part1
    rw [hp, h]
  · unfold part2
    rw [hp, h]

/-- Witness for C7: the literal packet `D2FE28` (24 bits), with an extra
trailing bit appended. -/
theorem c7_trailing_bits_ignored_witness :
    parse_packet 5 [true, true, false, true, false, false, true, false, true, true,
        true, true, true, true, true, false, false, false, true, false, true, false,
        false, false] = some (21, .mk 6 4 (.Literal 2021)) ∧
    (parse_packet 5 ([true, true, false, true, false, false, true, false, true, true,
        true, true, true, true, true, false, false, false, true, false, true, false,
        false, false] ++ [true]) = some (21, .mk 6 4 (.Literal 2021)) ∧
      part1 5 ([true, true, false, true, false, false, true, false, true, true,
        true, true, true, true, true, false, false, false, true, false, true, false,
        false, false] ++ [true]) = part1 5 [true, true, false, true, false, false,
        true, false, true, true, true, true, true, true, true, false, false, false,
        true, false, true, false, false, false] ∧
      part2 5 ([true, true, false, true, false, false, true, false, true, true,
        true, true, true, true, true, false, false, false, true, false, true, false,
        false, false] ++ [true]) = part2 5 [true, true, false, true, false, false,
        true, false, true, true, true, true, true, true, true, false, false, false,
        true, false, true, false, false, false]) :=
  ⟨rfl, c7_trailing_bits_ignored 5 _ [true] 21 _ rfl⟩


end Day16

namespace Day22

/-- `i64::MIN`. -/
def I64_MIN : Int := -(2 ^ 63)

/-- `i64::MAX`. -/
def I64_MAX : Int := 2 ^ 63 - 1

/-- A `Region`: an on/off tag, three inclusive axis ranges (modelled as
pairs `(start, end)` of mathematical integers standing for `i64`), and the
owned list of sub-regions.  (An inductive type because the Rust struct is
recursive through `Vec<Region>`.) -/
inductive Region where
  | mk («on» : Bool) (xr yr zr : Int × Int) (sub_regions : List Region) : Region

/-- `on` field (quoted because `on` is a Lean keyword). -/
def Region.«on» : Region → Bool
  | .mk b _ _ _ _ => b

/-- `xr` field. -/
def Region.xr : Region → Int × Int
  | .mk _ x _ _ _ => x

/-- `yr` field. -/
def Region.yr : Region → Int × Int
  | .mk _ _ y _ _ => y

/-- `zr` field. -/
def Region.zr : Region → Int × Int
  | .mk _ _ _ z _ => z

/-- `sub_regions` field. -/
def Region.sub_regions : Region → List Region
  | .mk _ _ _ _ subs => subs

@[simp] theorem Region.on_mk (b : Bool) (x y z : Int × Int) (l : List Region) :
    (Region.mk b x y z l).«on» = b := rfl

@[simp] theorem Region.xr_mk (b : Bool) (x y z : Int × Int) (l : List Region) :
    (Region.mk b x y z l).xr = x := rfl

@[simp] theorem Region.yr_mk (b : Bool) (x y z : Int × Int) (l : List Region) :
    (Region.mk b x y z l).yr = y := rfl

@[simp] theorem Region.zr_mk (b : Bool) (x y z : Int × Int) (l : List Region) :
    (Region.mk b x y z l).zr = z := rfl

@[simp] theorem Region.sub_regions_mk (b : Bool) (x y z : Int × Int) (l : List Region) :
    (Region.mk b x y z l).sub_regions = l := rfl

/-- `Region::world()`: the full `i64` range. -/
def Region.world : Int × Int := (I64_MIN, I64_MAX)

/-- `Region::is_world`. -/
def Region.is_world (r : Region) : Bool :=
  decide (r.xr = Region.world ∧ r.yr = Region.world ∧ r.zr = Region.world)

/-- `RangeInclusive::is_empty` on all three axes (`Region::is_empty`). -/
def Region.is_empty (r : Region) : Bool :=
  decide (r.xr.2 < r.xr.1 ∨ r.yr.2 < r.yr.1 ∨ r.zr.2 < r.zr.1)

/-- `Region::contains`: `other` is completely inside `self` (endpoint-wise). -/
def Region.contains (self other : Region) : Bool :=
  decide (other.xr.1 ≥ self.xr.1 ∧ other.xr.2 ≤ self.xr.2 ∧
    other.yr.1 ≥ self.yr.1 ∧ other.yr.2 ≤ self.yr.2 ∧
    other.zr.1 ≥ self.zr.1 ∧ other.zr.2 ≤ self.zr.2)

/-- `Region::intersects`: the axis ranges pairwise overlap (endpoint-wise). -/
def Region.intersects (self other : Region) : Bool :=
  decide (self.xr.1 ≤ other.xr.2 ∧ self.xr.2 ≥ other.xr.1 ∧
    self.yr.1 ≤ other.yr.2 ∧ self.yr.2 ≥ other.yr.1 ∧
    self.zr.1 ≤ other.zr.2 ∧ self.zr.2 ≥ other.zr.1)

/-- The custom `PartialEq for Region`: coordinate equality only. -/
def Region.eqCoords (a b : Region) : Bool :=
  decide (a.xr.1 = b.xr.1 ∧ a.yr.1 = b.yr.1 ∧ a.zr.1 = b.zr.1 ∧
    a.xr.2 = b.xr.2 ∧ a.yr.2 = b.yr.2 ∧ a.zr.2 = b.zr.2)

/-- The `find_subregions` closure of `Region::split`: per axis, the
`before`/`overlap`/`after` intervals of two inclusive ranges. -/
def find_subregions (a b : Int × Int) : List (Int × Int) :=
  [(min a.1 b.1, max a.1 b.1 - 1), (max a.1 b.1, min a.2 b.2), (min a.2 b.2 + 1, max a.2 b.2)]

/-- A candidate box of the 3 × 3 × 3 grid. -/
abbrev Cand := (Int × Int) × (Int × Int) × (Int × Int)

/-- The candidate grid of `Region::split`, in the iteration order of the
nested `for` loops (x outer, y middle, z inner). -/
def candBoxes (self other : Region) : List Cand :=
  (find_subregions self.xr other.xr).bind (fun xr =>
    (find_subregions self.yr other.yr).bind (fun yr =>
      (find_subregions self.zr other.zr).map (fun zr => (xr, yr, zr))))

/-- One step of the accumulation loop of `Region::split`: skip a candidate
equal (by coordinates) to one already collected or empty; otherwise push it
onto `other_regions` (state `other.on`) if contained in `other`, else onto
`self_regions` (state `self.on`) if contained in `self`.  The accumulator is
`(self_regions, other_regions)`. -/
def splitStep (self other : Region) (acc : List Region × List Region) (c : Cand) :
    List Region × List Region :=
  let new_region := Region.mk false c.1 c.2.1 c.2.2 []
  if acc.2.any (fun r => r.eqCoords new_region) || acc.1.any (fun r => r.eqCoords new_region)
      || new_region.is_empty then acc
  else if other.contains new_region then
    (acc.1, acc.2 ++ [Region.mk other.«on» c.1 c.2.1 c.2.2 []])
  else if self.contains new_region then
    (acc.1 ++ [Region.mk self.«on» c.1 c.2.1 c.2.2 []], acc.2)
  else acc

/-- `Region::split` (the volume-conservation `assert!` is modelled as a
no-op; the properties it checks are proved separately where needed). -/
def Region.split (self other : Region) : List Region × List Region :=
  (candBoxes self other).foldl (splitStep self other) ([], [])

/-- The `find` over `enumerate()` in `Region::add_region`: the first
stored sub-region intersecting the new one, with its index. -/
def findIntersect : List Region → Region → Option (Nat × Region)
  | [], _ => none
  | r :: rs, nr =>
    if r.intersects nr then some (0, r)
    else (findIntersect rs nr).map (fun p => (p.1 + 1, p.2))

/-- The `while let Some(new_region) = regions.pop()` loop of
`Region::add_region`.  The Rust `Vec` stack is modelled reversed, so that
`pop` takes the head; `regions.append(&mut other_regions)` therefore
prepends `other_regions.reverse`.  Fuel makes the loop total; `none` means
fuel ran out (the loop always terminates in reality, see
`addLoop_terminates`). -/
def addLoop (self : Region) : Nat → List Region → Option Region
  | 0, _ => none
  | _ + 1, [] => some self
  | fuel + 1, new_region :: rest =>
    let subs := self.sub_regions.filter (fun r => ! new_region.contains r)
    match findIntersect subs new_region with
    | some ir =>
      let sp := ir.2.split new_region
      addLoop (Region.mk self.«on» self.xr self.yr self.zr ((subs ++ sp.1).eraseIdx ir.1))
        fuel (sp.2.reverse ++ rest)
    | none =>
      if new_region.«on» != self.«on» then
        addLoop (Region.mk self.«on» self.xr self.yr self.zr (subs ++ [new_region])) fuel rest
      else
        addLoop (Region.mk self.«on» self.xr self.yr self.zr subs) fuel rest
termination_by structural fuel _ => fuel

/-- `Region::add_region` seeds the loop with the single new region. -/
def Region.add_region (self other : Region) (fuel : Nat) : Option Region :=
  addLoop self fuel [other]

/-- `RegionTrie::new()`: the root is the unbounded `off` universe. -/
def RegionTrie.new : Region :=
  Region.mk false Region.world Region.world Region.world []

/-- `Region::self_volume`: product of the inclusive extents. -/
def Region.self_volume (r : Region) : Int :=
  (1 + r.xr.2 - r.xr.1) * (1 + r.yr.2 - r.yr.1) * (1 + r.zr.2 - r.zr.1)

mutual

/-- `Region::volume`: 0 for the universe, else own volume minus the
children's volumes. -/
def Region.volume : Region → Int
  | .mk b xr yr zr subs =>
    if Region.is_world (.mk b xr yr zr subs) then 0
    else Region.self_volume (.mk b xr yr zr subs) - volumeList subs

/-- The `sub_regions.iter().map(volume).sum()` fold. -/
def volumeList : List Region → Int
  | [] => 0
  | r :: rs => Region.volume r + volumeList rs

end

/-- `RegionTrie::count_on`: total volume of the root's children. -/
def count_on (root : Region) : Int := volumeList root.sub_regions

/-- A reactor command: three inclusive ranges and the on/off action. -/
structure Command where
  xr : Int × Int
  yr : Int × Int
  zr : Int × Int
  turn_on : Bool

/-- `clamp_50`: clamp both endpoints of a range into `[-50, 50]`. -/
def clamp_50 (r : Int × Int) : Int × Int :=
  (min (max r.1 (-50)) 50, min (max r.2 (-50)) 50)

/-- `Command::restrict`: clamp all three ranges. -/
def Command.restrict (c : Command) : Command :=
  ⟨clamp_50 c.xr, clamp_50 c.yr, clamp_50 c.zr, c.turn_on⟩

/-- The per-axis test of `Command::inside_init`. -/
def insideAxis (r : Int × Int) : Bool :=
  decide ((r.1 ≥ -50 ∧ r.1 ≤ 50) ∨ (r.2 ≥ -50 ∧ r.2 ≤ 50))

/-- `Command::inside_init`: every axis has an endpoint inside `[-50, 50]`. -/
def Command.inside_init (c : Command) : Bool :=
  insideAxis c.xr && insideAxis c.yr && insideAxis c.zr

/-- `Region::from_command`. -/
def Region.from_command (c : Command) : Region :=
  Region.mk c.turn_on c.xr c.yr c.zr []

/-- `part2`'s command loop (`ReactorCore::execute_command` for every
command in order, starting from a fresh trie), with the given fuel for
every insertion. -/
def execCommands (fuel : Nat) (cmds : List Command) : Option Region :=
  cmds.foldlM (fun (root : Region) (c : Command) => root.add_region (Region.from_command c) fuel) RegionTrie.new

/-- `part2`: execute all commands, then `count_on`. -/
def part2 (fuel : Nat) (cmds : List Command) : Option Int :=
  (execCommands fuel cmds).map count_on

/-- `part1`: execute only the commands passing `inside_init`, restricted
by `clamp_50`, then `count_on`. -/
def part1 (fuel : Nat) (cmds : List Command) : Option Int :=
  (cmds.foldlM
    (fun (root : Region) (c : Command) =>
      if c.inside_init then root.add_region (Region.from_command c.restrict) fuel
      else some root)
    RegionTrie.new).map count_on

/-! ### Semantics: integer unit cubes -/

/-- An integer unit cube, identified by its coordinates. -/
abbrev Pt := Int × Int × Int

/-- The cube `p` lies inside the box of region `r`. -/
def memPt (p : Pt) (r : Region) : Prop :=
  r.xr.1 ≤ p.1 ∧ p.1 ≤ r.xr.2 ∧ r.yr.1 ≤ p.2.1 ∧ p.2.1 ≤ r.yr.2 ∧
  r.zr.1 ≤ p.2.2 ∧ p.2.2 ≤ r.zr.2

instance (p : Pt) (r : Region) : Decidable (memPt p r) := by
  unfold memPt
  infer_instance

/-- The box of `r` is nonempty (all three ranges are proper). -/
def NonemptyR (r : Region) : Prop :=
  r.xr.1 ≤ r.xr.2 ∧ r.yr.1 ≤ r.yr.2 ∧ r.zr.1 ≤ r.zr.2

/-- Two regions share no cube. -/
def DisjointR (a b : Region) : Prop := ∀ p : Pt, ¬(memPt p a ∧ memPt p b)

/-- Some region of the list contains the cube. -/
def coveredL (S : List Region) (p : Pt) : Prop := ∃ r ∈ S, memPt p r

theorem DisjointR.symm {a b : Region} (h : DisjointR a b) : DisjointR b a :=
  fun p hp => h p ⟨hp.2, hp.1⟩

/-- `contains` is inclusion of cubes. -/
theorem memPt_of_contains {a b : Region} (h : a.contains b = true) {p : Pt}
    (hp : memPt p b) : memPt p a := by
  rw [Region.contains, decide_eq_true_eq] at h
  unfold memPt at hp ⊢
  omega

/-- A shared cube forces `intersects` (in either argument order). -/
theorem intersects_of_common {a b : Region} {p : Pt} (ha : memPt p a) (hb : memPt p b) :
    a.intersects b = true := by
  rw [Region.intersects, decide_eq_true_eq]
  unfold memPt at ha hb
  omega

/-- Nonempty intersecting boxes share a cube (the corner of maxima). -/
theorem exists_common_of_intersects {a b : Region} (hna : NonemptyR a) (hnb : NonemptyR b)
    (h : a.intersects b = true) : ∃ p : Pt, memPt p a ∧ memPt p b := by
  rw [Region.intersects, decide_eq_true_eq] at h
  refine ⟨(max a.xr.1 b.xr.1, max a.yr.1 b.yr.1, max a.zr.1 b.zr.1), ?_, ?_⟩ <;>
    · unfold NonemptyR at hna hnb
      unfold memPt
      simp only []
      omega

/-- `is_empty = false` is exactly nonemptiness. -/
theorem nonemptyR_iff (r : Region) : NonemptyR r ↔ r.is_empty = false := by
  rw [Region.is_empty]
  unfold NonemptyR
  simp only [decide_eq_false_iff_not]
  omega

theorem coveredL_append (A B : List Region) (p : Pt) :
    coveredL (A ++ B) p ↔ coveredL A p ∨ coveredL B p := by
  unfold coveredL
  simp only [List.mem_append]
  constructor
  · rintro ⟨r, h | h, hm⟩
    · exact Or.inl ⟨r, h, hm⟩
    · exact Or.inr ⟨r, h, hm⟩
  · rintro (⟨r, h, hm⟩ | ⟨r, h, hm⟩)
    · exact ⟨r, Or.inl h, hm⟩
    · exact ⟨r, Or.inr h, hm⟩

theorem coveredL_reverse (A : List Region) (p : Pt) :
    coveredL A.reverse p ↔ coveredL A p := by
  unfold coveredL
  simp [List.mem_reverse]

/-! ### Claim C9 (counterexample): a degenerate command makes `count_on` negative -/

/-- Leaf volume: self volume unless the box is the whole world. -/
theorem volume_leaf (b : Bool) (xr yr zr : Int × Int) :
    Region.volume (.mk b xr yr zr []) =
      if Region.is_world (.mk b xr yr zr []) then 0
      else Region.self_volume (.mk b xr yr zr []) := by
  rw [Region.volume]
  rw [volumeList]
  ring_nf

/-- C9 counterexample: inserting the single command `on x=5..3,y=0..0,z=0..0`
(an inverted, empty x-range) stores a region of volume −1, and `count_on`
returns −1 < 0. -/
theorem c9_counterexample_negative_count :
    execCommands 2 [⟨(5,3),(0,0),(0,0),true⟩] =
      some (Region.mk false Region.world Region.world Region.world
        [Region.mk true (5,3) (0,0) (0,0) []]) ∧
    count_on (Region.mk false Region.world Region.world Region.world
        [Region.mk true (5,3) (0,0) (0,0) []]) = -1 := by
  refine ⟨rfl, ?_⟩
  rw [count_on]
  show volumeList [Region.mk true (5,3) (0,0) (0,0) []] = -1
  rw [volumeList, volumeList, volume_leaf]
  norm_num [Region.is_world, Region.self_volume, Region.world, I64_MIN, I64_MAX,
    Region.xr, Region.yr, Region.zr]

/-! ### Claim C2 (counterexample): degenerate commands break sibling disjointness -/

/-- C2 counterexample: after inserting `on x=0..10,y=0..10,z=0..10` and then
the degenerate `on x=6..3,y=5..4,z=0..10`, the root's children include the
two boxes `(0..5, 0..4, 0..10)` and `(4..10, 0..4, 0..10)`, which share the
cube `(4, 0, 0)` — two siblings under the same parent overlap (the
`assert_disjoint` check of the source fires exactly here). -/
theorem c2_counterexample_overlapping_siblings :
    execCommands 5 [⟨(0,10),(0,10),(0,10),true⟩, ⟨(6,3),(5,4),(0,10),true⟩] =
      some (Region.mk false Region.world Region.world Region.world
        [Region.mk true (0,5) (0,4) (0,10) [], Region.mk true (0,5) (5,10) (0,10) [],
         Region.mk true (4,10) (0,4) (0,10) [], Region.mk true (4,10) (5,10) (0,10) []]) ∧
    memPt (4, 0, 0) (Region.mk true (0,5) (0,4) (0,10) []) ∧
    memPt (4, 0, 0) (Region.mk true (4,10) (0,4) (0,10) []) := by
  refine ⟨?_, by decide, by decide⟩
  set_option maxRecDepth 10000 in rfl

/-! ### Claim C5: the part-1 bounded mode -/

/-- C5 counterexample: the command `on x=-100..100,y=-100..100,z=-100..100`
straddles the ±50 cube — it is *not* entirely outside it (it contains the
cube `(0,0,0)`, which lies within ±50 on every axis) — yet `inside_init`
rejects it, `part1` skips it (yielding 0), while clipping-and-applying it,
as the claim requires, would yield 101³ = 1030301. -/
theorem c5_counterexample_straddling_skipped :
    Command.inside_init ⟨(-100,100),(-100,100),(-100,100),true⟩ = false ∧
    part1 2 [⟨(-100,100),(-100,100),(-100,100),true⟩] = some 0 ∧
    memPt (0, 0, 0) (Region.from_command ⟨(-100,100),(-100,100),(-100,100),true⟩) ∧
    ((-50:Int) ≤ 0 ∧ (0:Int) ≤ 50) ∧
    part2 2 [Command.restrict ⟨(-100,100),(-100,100),(-100,100),true⟩] = some 1030301 := by
  refine ⟨by decide, ?_, by decide, by decide, ?_⟩
  · show (some RegionTrie.new).map count_on = some 0
    rw [Option.map_some', count_on]
    show some (volumeList []) = some 0
    rw [volumeList]
  · show (some (Region.mk false Region.world Region.world Region.world
        [Region.mk true (-50,50) (-50,50) (-50,50) []])).map count_on = some 1030301
    rw [Option.map_some', count_on]
    show some (volumeList [Region.mk true (-50,50) (-50,50) (-50,50) []]) = some 1030301
    rw [volumeList, volumeList, volume_leaf]
    norm_num [Region.is_world, Region.self_volume, Region.world, I64_MIN, I64_MAX,
      Region.xr, Region.yr, Region.zr]

/-- C5 (amended): `part1` executes, in order, exactly the commands accepted
by `inside_init`, each clipped by `clamp_50` to the ±50 cube before
insertion; and `inside_init` rejects a command iff on some axis *both*
endpoints lie outside `[-50, 50]` — in particular a command whose box
strictly contains the cube on some axis is also skipped, not only the boxes
entirely outside the cube. -/
theorem c5_amended_part1_filter_clamp (fuel : Nat) (cmds : List Command) :
    part1 fuel cmds =
      (execCommands fuel ((cmds.filter Command.inside_init).map Command.restrict)).map
        count_on ∧
    (∀ c : Command, c.inside_init = false ↔
      (((c.xr.1 < -50 ∨ 50 < c.xr.1) ∧ (c.xr.2 < -50 ∨ 50 < c.xr.2)) ∨
       ((c.yr.1 < -50 ∨ 50 < c.yr.1) ∧ (c.yr.2 < -50 ∨ 50 < c.yr.2)) ∨
       ((c.zr.1 < -50 ∨ 50 < c.zr.1) ∧ (c.zr.2 < -50 ∨ 50 < c.zr.2)))) := by
  constructor
  · rw [part1, execCommands]
    congr 1
    generalize RegionTrie.new = root
    induction cmds generalizing root with
    | nil => rfl
    | cons c cs ih =>
      by_cases hc : c.inside_init = true
      · rw [List.foldlM_cons, List.filter_cons_of_pos hc, List.map_cons, List.foldlM_cons]
        cases h : Region.add_region root (Region.from_command c.restrict) fuel with
        | none => simp [hc]
        | some root2 =>
          simp only [hc, if_true]
          show (some root2).bind _ = (some root2).bind _
          rw [Option.some_bind, Option.some_bind]
          exact ih root2
      · rw [List.foldlM_cons, List.filter_cons_of_neg hc]
        rw [Bool.not_eq_true] at hc
        simp only [hc, Bool.false_eq_true, if_false]
        show (some root).bind _ = _
        rw [Option.some_bind]
        exact ih root
  · intro c
    rw [Command.inside_init]
    simp only [insideAxis, Bool.and_eq_false_iff, decide_eq_false_iff_not]
    constructor
    · intro h
      rcases h with (h | h) | h <;> [left; right;right] <;> omega
    · intro h
      rcases h with h | h | h <;> [left;left;right] <;> [left; right; skip] <;> omega


/-! ### Interval lemmas for the three-way axis partition -/

/-- An inclusive interval is nonempty. -/
def neIv (I : Int × Int) : Prop := I.1 ≤ I.2

/-- `t` lies in the inclusive interval `I`. -/
def inIv (t : Int) (I : Int × Int) : Prop := I.1 ≤ t ∧ t ≤ I.2

/-- `I` lies (endpoint-wise) inside `J`. -/
def subIv (I J : Int × Int) : Prop := J.1 ≤ I.1 ∧ I.2 ≤ J.2

/-- Every point of `b` lies in a member of the partition that is inside `b`
(axes `a`, `b` nonempty and overlapping). -/
theorem ax_cover_b {a b : Int × Int} (ha : neIv a) (hb : neIv b)
    (hab : a.1 ≤ b.2) (hba : b.1 ≤ a.2) (t : Int) (ht : inIv t b) :
    ∃ I ∈ find_subregions a b, inIv t I ∧ subIv I b := by
  unfold neIv at ha hb
  unfold inIv at ht
  simp only [find_subregions, List.mem_cons, List.not_mem_nil, or_false]
  by_cases h1 : t < max a.1 b.1
  · exact ⟨_, Or.inl rfl, by unfold inIv subIv; constructor <;> simp <;> omega⟩
  · by_cases h2 : t ≤ min a.2 b.2
    · exact ⟨_, Or.inr (Or.inl rfl), by unfold inIv subIv; constructor <;> simp <;> omega⟩
    · exact ⟨_, Or.inr (Or.inr rfl), by unfold inIv subIv; constructor <;> simp <;> omega⟩

/-- Every point of `a` lies in a member of the partition that is inside `a`. -/
theorem ax_cover_a {a b : Int × Int} (ha : neIv a) (hb : neIv b)
    (hab : a.1 ≤ b.2) (hba : b.1 ≤ a.2) (t : Int) (ht : inIv t a) :
    ∃ I ∈ find_subregions a b, inIv t I ∧ subIv I a := by
  unfold neIv at ha hb
  unfold inIv at ht
  simp only [find_subregions, List.mem_cons, List.not_mem_nil, or_false]
  by_cases h1 : t < max a.1 b.1
  · exact ⟨_, Or.inl rfl, by unfold inIv subIv; constructor <;> simp <;> omega⟩
  · by_cases h2 : t ≤ min a.2 b.2
    · exact ⟨_, Or.inr (Or.inl rfl), by unfold inIv subIv; constructor <;> simp <;> omega⟩
    · exact ⟨_, Or.inr (Or.inr rfl), by unfold inIv subIv; constructor <;> simp <;> omega⟩

/-- Every nonempty member of the partition is inside `b` or separated from it. -/
theorem ax_sub_or_disj_b {a b : Int × Int} (ha : neIv a) (hb : neIv b)
    (hab : a.1 ≤ b.2) (hba : b.1 ≤ a.2) {I : Int × Int}
    (hI : I ∈ find_subregions a b) (hne : neIv I) :
    subIv I b ∨ (I.2 < b.1 ∨ b.2 < I.1) := by
  unfold neIv at ha hb hne
  simp only [find_subregions, List.mem_cons, List.not_mem_nil, or_false] at hI
  rcases hI with rfl | rfl | rfl <;>
    · simp only [subIv] at *
      omega

/-- Every nonempty member of the partition is inside `a` or separated from it. -/
theorem ax_sub_or_disj_a {a b : Int × Int} (ha : neIv a) (hb : neIv b)
    (hab : a.1 ≤ b.2) (hba : b.1 ≤ a.2) {I : Int × Int}
    (hI : I ∈ find_subregions a b) (hne : neIv I) :
    subIv I a ∨ (I.2 < a.1 ∨ a.2 < I.1) := by
  unfold neIv at ha hb hne
  simp only [find_subregions, List.mem_cons, List.not_mem_nil, or_false] at hI
  rcases hI with rfl | rfl | rfl <;>
    · simp only [subIv] at *
      omega

/-- Two distinct nonempty members of the partition are separated. -/
theorem ax_distinct_disjoint {a b : Int × Int} (ha : neIv a) (hb : neIv b)
    (hab : a.1 ≤ b.2) (hba : b.1 ≤ a.2) {I J : Int × Int}
    (hI : I ∈ find_subregions a b) (hJ : J ∈ find_subregions a b)
    (hneI : neIv I) (hneJ : neIv J) (hIJ : I ≠ J) :
    I.2 < J.1 ∨ J.2 < I.1 := by
  unfold neIv at ha hb hneI hneJ
  simp only [find_subregions, List.mem_cons, List.not_mem_nil, or_false] at hI hJ
  have hIJ2 : I.1 ≠ J.1 ∨ I.2 ≠ J.2 := by
    by_contra hcon
    push_neg at hcon
    exact hIJ (Prod.ext hcon.1 hcon.2)
  rcases hI with rfl | rfl | rfl <;> rcases hJ with rfl | rfl | rfl <;> omega


/-! ### Candidate boxes of `Region::split` -/

/-- The region built from a candidate box (fresh, without children). -/
def candToRegion (b : Bool) (c : Cand) : Region := .mk b c.1 c.2.1 c.2.2 []

/-- A candidate box is nonempty on every axis. -/
def NEc (c : Cand) : Prop := neIv c.1 ∧ neIv c.2.1 ∧ neIv c.2.2

/-- The candidate box lies (endpoint-wise) inside region `w`. -/
def containsC (w : Region) (c : Cand) : Prop := w.contains (candToRegion false c) = true

theorem candToRegion_on (b : Bool) (c : Cand) : (candToRegion b c).«on» = b := rfl

theorem candToRegion_subs (b : Bool) (c : Cand) : (candToRegion b c).sub_regions = [] := rfl

/-- Membership in the candidate grid, axis by axis. -/
theorem mem_candBoxes {r q : Region} {c : Cand} :
    c ∈ candBoxes r q ↔ c.1 ∈ find_subregions r.xr q.xr ∧
      c.2.1 ∈ find_subregions r.yr q.yr ∧ c.2.2 ∈ find_subregions r.zr q.zr := by
  unfold candBoxes
  simp only [List.mem_bind, List.mem_map]
  constructor
  · rintro ⟨x, hx, y, hy, z, hz, rfl⟩
    exact ⟨hx, hy, hz⟩
  · rintro ⟨hx, hy, hz⟩
    exact ⟨c.1, hx, c.2.1, hy, c.2.2, hz, rfl⟩

/-- Emptiness of a candidate region is the negation of `NEc`. -/
theorem candToRegion_is_empty (b : Bool) (c : Cand) :
    (candToRegion b c).is_empty = false ↔ NEc c := by
  rw [Region.is_empty]
  show (decide _) = false ↔ _
  rw [decide_eq_false_iff_not]
  unfold NEc neIv candToRegion
  simp only [Region.xr_mk, Region.yr_mk, Region.zr_mk]
  omega

/-- `containsC` as axis-wise inclusion. -/
theorem containsC_iff {w : Region} {c : Cand} :
    containsC w c ↔ subIv c.1 w.xr ∧ subIv c.2.1 w.yr ∧ subIv c.2.2 w.zr := by
  unfold containsC Region.contains
  rw [decide_eq_true_eq]
  unfold candToRegion subIv
  simp only [Region.xr_mk, Region.yr_mk, Region.zr_mk]
  omega

/-- Membership of a cube in a candidate region, axis by axis. -/
theorem memPt_candToRegion {p : Pt} {b : Bool} {c : Cand} :
    memPt p (candToRegion b c) ↔ inIv p.1 c.1 ∧ inIv p.2.1 c.2.1 ∧ inIv p.2.2 c.2.2 := by
  unfold memPt candToRegion inIv
  simp only [Region.xr_mk, Region.yr_mk, Region.zr_mk]
  omega

/-- Coordinate-equal regions contain the same cubes. -/
theorem eqCoords_memPt {x y : Region} (h : x.eqCoords y = true) (p : Pt) :
    memPt p x ↔ memPt p y := by
  rw [Region.eqCoords, decide_eq_true_eq] at h
  unfold memPt
  omega

/-- Coordinate-equal regions are contained in the same regions. -/
theorem eqCoords_contains {x y : Region} (h : x.eqCoords y = true) (w : Region) :
    w.contains x = w.contains y := by
  rw [Region.eqCoords, decide_eq_true_eq] at h
  unfold Region.contains
  obtain ⟨h1, h2, h3, h4, h5, h6⟩ := h
  rw [h1, h2, h3, h4, h5, h6]

/-- Coordinate equality of two candidate regions is equality of candidates. -/
theorem eqCoords_candToRegion {b b' : Bool} {c c' : Cand} :
    (candToRegion b c).eqCoords (candToRegion b' c') = true ↔ c = c' := by
  rw [Region.eqCoords, decide_eq_true_eq]
  unfold candToRegion
  simp only [Region.xr_mk, Region.yr_mk, Region.zr_mk]
  constructor
  · rintro ⟨h1, h2, h3, h4, h5, h6⟩
    exact Prod.ext (Prod.ext h1 h4) (Prod.ext (Prod.ext h2 h5) (Prod.ext h3 h6))
  · rintro rfl
    exact ⟨rfl, rfl, rfl, rfl, rfl, rfl⟩

/-- Axis facts extracted from nonemptiness and `intersects`. -/
theorem axis_facts {r q : Region} (hr : NonemptyR r) (hq : NonemptyR q)
    (hx : r.intersects q = true) :
    (neIv r.xr ∧ neIv q.xr ∧ r.xr.1 ≤ q.xr.2 ∧ q.xr.1 ≤ r.xr.2) ∧
    (neIv r.yr ∧ neIv q.yr ∧ r.yr.1 ≤ q.yr.2 ∧ q.yr.1 ≤ r.yr.2) ∧
    (neIv r.zr ∧ neIv q.zr ∧ r.zr.1 ≤ q.zr.2 ∧ q.zr.1 ≤ r.zr.2) := by
  rw [Region.intersects, decide_eq_true_eq] at hx
  unfold NonemptyR at hr hq
  unfold neIv
  omega

/-- Distinct nonempty candidates of the same grid are disjoint. -/
theorem cand_distinct_disjoint {r q : Region} (hr : NonemptyR r) (hq : NonemptyR q)
    (hx : r.intersects q = true) {c c' : Cand} (hc : c ∈ candBoxes r q)
    (hc' : c' ∈ candBoxes r q) (hne : NEc c) (hne' : NEc c') (hcc : c ≠ c')
    (b b' : Bool) : DisjointR (candToRegion b c) (candToRegion b' c') := by
  obtain ⟨hxa, hya, hza⟩ := axis_facts hr hq hx
  rw [mem_candBoxes] at hc hc'
  intro p hp
  obtain ⟨hp1, hp2⟩ := hp
  rw [memPt_candToRegion] at hp1 hp2
  have hdiff : c.1 ≠ c'.1 ∨ c.2.1 ≠ c'.2.1 ∨ c.2.2 ≠ c'.2.2 := by
    by_contra hcon
    push_neg at hcon
    exact hcc (Prod.ext hcon.1 (Prod.ext hcon.2.1 hcon.2.2))
  rcases hdiff with hd | hd | hd
  · have := ax_distinct_disjoint hxa.1 hxa.2.1 hxa.2.2.1 hxa.2.2.2
      hc.1 hc'.1 hne.1 hne'.1 hd
    have h1 := hp1.1
    have h2 := hp2.1
    unfold inIv at h1 h2
    omega
  · have := ax_distinct_disjoint hya.1 hya.2.1 hya.2.2.1 hya.2.2.2
      hc.2.1 hc'.2.1 hne.2.1 hne'.2.1 hd
    have h1 := hp1.2.1
    have h2 := hp2.2.1
    unfold inIv at h1 h2
    omega
  · have := ax_distinct_disjoint hza.1 hza.2.1 hza.2.2.1 hza.2.2.2
      hc.2.2 hc'.2.2 hne.2.2 hne'.2.2 hd
    have h1 := hp1.2.2
    have h2 := hp2.2.2
    unfold inIv at h1 h2
    omega


/-- A contained candidate's cubes lie in the container. -/
theorem cand_sub {w : Region} {c : Cand} (h : containsC w c) {b : Bool} {p : Pt}
    (hp : memPt p (candToRegion b c)) : memPt p w := by
  refine memPt_of_contains h ?_
  rw [memPt_candToRegion] at hp ⊢
  exact hp

/-- A nonempty candidate not contained in `q` is disjoint from `q`. -/
theorem cand_not_contains_disjoint_q {r q : Region} (hr : NonemptyR r) (hq : NonemptyR q)
    (hx : r.intersects q = true) {c : Cand} (hc : c ∈ candBoxes r q) (hne : NEc c)
    (hnc : ¬ containsC q c) (b : Bool) : DisjointR (candToRegion b c) q := by
  obtain ⟨hxa, hya, hza⟩ := axis_facts hr hq hx
  rw [mem_candBoxes] at hc
  rw [containsC_iff] at hnc
  intro p hp
  obtain ⟨hp1, hp2⟩ := hp
  rw [memPt_candToRegion] at hp1
  unfold memPt at hp2
  have h1 : ¬ subIv c.1 q.xr ∨ ¬ subIv c.2.1 q.yr ∨ ¬ subIv c.2.2 q.zr := by tauto
  rcases h1 with hd | hd | hd
  · rcases ax_sub_or_disj_b hxa.1 hxa.2.1 hxa.2.2.1 hxa.2.2.2 hc.1 hne.1 with h | h
    · exact hd h
    · have := hp1.1
      unfold inIv at this
      omega
  · rcases ax_sub_or_disj_b hya.1 hya.2.1 hya.2.2.1 hya.2.2.2 hc.2.1 hne.2.1 with h | h
    · exact hd h
    · have := hp1.2.1
      unfold inIv at this
      omega
  · rcases ax_sub_or_disj_b hza.1 hza.2.1 hza.2.2.1 hza.2.2.2 hc.2.2 hne.2.2 with h | h
    · exact hd h
    · have := hp1.2.2
      unfold inIv at this
      omega

/-- Every cube of `q` lies in a nonempty candidate contained in `q`. -/
theorem cand_cover_q {r q : Region} (hr : NonemptyR r) (hq : NonemptyR q)
    (hx : r.intersects q = true) (p : Pt) (hp : memPt p q) :
    ∃ c ∈ candBoxes r q, NEc c ∧ containsC q c ∧ memPt p (candToRegion false c) := by
  obtain ⟨hxa, hya, hza⟩ := axis_facts hr hq hx
  unfold memPt at hp
  obtain ⟨Ix, hIx, hIx2, hIx3⟩ := ax_cover_b hxa.1 hxa.2.1 hxa.2.2.1 hxa.2.2.2 p.1
    (by unfold inIv; omega)
  obtain ⟨Iy, hIy, hIy2, hIy3⟩ := ax_cover_b hya.1 hya.2.1 hya.2.2.1 hya.2.2.2 p.2.1
    (by unfold inIv; omega)
  obtain ⟨Iz, hIz, hIz2, hIz3⟩ := ax_cover_b hza.1 hza.2.1 hza.2.2.1 hza.2.2.2 p.2.2
    (by unfold inIv; omega)
  refine ⟨(Ix, Iy, Iz), mem_candBoxes.mpr ⟨hIx, hIy, hIz⟩, ?_, ?_, ?_⟩
  · unfold NEc neIv
    dsimp only
    unfold inIv at hIx2 hIy2 hIz2
    constructor
    · omega
    constructor
    · omega
    · omega
  · rw [containsC_iff]
    exact ⟨hIx3, hIy3, hIz3⟩
  · rw [memPt_candToRegion]
    exact ⟨hIx2, hIy2, hIz2⟩

/-- Every cube of `r` outside `q` lies in a nonempty candidate contained in
`r` but not in `q`. -/
theorem cand_cover_r_minus_q {r q : Region} (hr : NonemptyR r) (hq : NonemptyR q)
    (hx : r.intersects q = true) (p : Pt) (hp : memPt p r) (hnp : ¬ memPt p q) :
    ∃ c ∈ candBoxes r q, NEc c ∧ containsC r c ∧ ¬ containsC q c ∧
      memPt p (candToRegion false c) := by
  obtain ⟨hxa, hya, hza⟩ := axis_facts hr hq hx
  unfold memPt at hp
  obtain ⟨Ix, hIx, hIx2, hIx3⟩ := ax_cover_a hxa.1 hxa.2.1 hxa.2.2.1 hxa.2.2.2 p.1
    (by unfold inIv; omega)
  obtain ⟨Iy, hIy, hIy2, hIy3⟩ := ax_cover_a hya.1 hya.2.1 hya.2.2.1 hya.2.2.2 p.2.1
    (by unfold inIv; omega)
  obtain ⟨Iz, hIz, hIz2, hIz3⟩ := ax_cover_a hza.1 hza.2.1 hza.2.2.1 hza.2.2.2 p.2.2
    (by unfold inIv; omega)
  refine ⟨(Ix, Iy, Iz), mem_candBoxes.mpr ⟨hIx, hIy, hIz⟩, ?_, ?_, ?_, ?_⟩
  · unfold NEc neIv
    dsimp only
    unfold inIv at hIx2 hIy2 hIz2
    constructor
    · omega
    constructor
    · omega
    · omega
  · rw [containsC_iff]
    exact ⟨hIx3, hIy3, hIz3⟩
  · rw [containsC_iff]
    intro hcon
    refine hnp ?_
    unfold memPt
    dsimp only at hcon
    unfold subIv at hcon
    unfold inIv at hIx2 hIy2 hIz2
    omega
  · rw [memPt_candToRegion]
    exact ⟨hIx2, hIy2, hIz2⟩


/-! ### The accumulation loop of `Region::split` -/

/-- Shape of the `self_regions` accumulator: fragments of `r` avoiding `q`. -/
def SelfShape (r q : Region) (l : List Region) : Prop :=
  ∀ s ∈ l, ∃ c, c ∈ candBoxes r q ∧ NEc c ∧ containsC r c ∧ ¬ containsC q c ∧
    s = candToRegion r.«on» c

/-- Shape of the `other_regions` accumulator: fragments of `q`. -/
def OtherShape (r q : Region) (l : List Region) : Prop :=
  ∀ o ∈ l, ∃ c, c ∈ candBoxes r q ∧ NEc c ∧ containsC q c ∧ o = candToRegion q.«on» c

/-- `splitStep` restated through `candToRegion`. -/
theorem splitStep_eq (r q : Region) (acc : List Region × List Region) (c : Cand) :
    splitStep r q acc c =
      if acc.2.any (fun x => x.eqCoords (candToRegion false c)) ||
         acc.1.any (fun x => x.eqCoords (candToRegion false c)) ||
         (candToRegion false c).is_empty then acc
      else if q.contains (candToRegion false c) then
        (acc.1, acc.2 ++ [candToRegion q.«on» c])
      else if r.contains (candToRegion false c) then
        (acc.1 ++ [candToRegion r.«on» c], acc.2)
      else acc := rfl

/-- `contains` ignores the state tag of a candidate region. -/
theorem contains_candToRegion_on (w : Region) (b b' : Bool) (c : Cand) :
    w.contains (candToRegion b c) = w.contains (candToRegion b' c) := rfl

/-- Invariants and coverage of the accumulation loop of `Region::split`. -/
theorem splitFold_main {r q : Region} (hr : NonemptyR r) (hq : NonemptyR q)
    (hx : r.intersects q = true) :
    ∀ (L : List Cand) (acc : List Region × List Region),
      (∀ c ∈ L, c ∈ candBoxes r q) →
      SelfShape r q acc.1 → OtherShape r q acc.2 →
      acc.1.Pairwise DisjointR → acc.2.Pairwise DisjointR →
      SelfShape r q (L.foldl (splitStep r q) acc).1 ∧
      OtherShape r q (L.foldl (splitStep r q) acc).2 ∧
      (L.foldl (splitStep r q) acc).1.Pairwise DisjointR ∧
      (L.foldl (splitStep r q) acc).2.Pairwise DisjointR ∧
      (∀ p : Pt, ((∃ c ∈ L, NEc c ∧ containsC q c ∧ memPt p (candToRegion false c)) ∨
          coveredL acc.2 p) → coveredL (L.foldl (splitStep r q) acc).2 p) ∧
      (∀ p : Pt, ((∃ c ∈ L, NEc c ∧ containsC r c ∧ ¬ containsC q c ∧
          memPt p (candToRegion false c)) ∨ coveredL acc.1 p) →
        coveredL (L.foldl (splitStep r q) acc).1 p) ∧
      (L.foldl (splitStep r q) acc).2.length ≤ acc.2.length + L.length := by
  intro L
  induction L with
  | nil =>
    intro acc hL hS hO hP1 hP2
    refine ⟨hS, hO, hP1, hP2, ?_, ?_, by simp⟩
    · intro p hp
      rcases hp with ⟨c, hc, _⟩ | hp
      · exact absurd hc (List.not_mem_nil c)
      · exact hp
    · intro p hp
      rcases hp with ⟨c, hc, _⟩ | hp
      · exact absurd hc (List.not_mem_nil c)
      · exact hp
  | cons c L ih =>
    intro acc hL hS hO hP1 hP2
    rw [List.foldl_cons, splitStep_eq]
    have hcCand : c ∈ candBoxes r q := hL c (List.mem_cons_self c L)
    have hLtail : ∀ c' ∈ L, c' ∈ candBoxes r q := fun c' h => hL c' (List.mem_cons_of_mem c h)
    by_cases hskip : (acc.2.any (fun x => x.eqCoords (candToRegion false c)) ||
         acc.1.any (fun x => x.eqCoords (candToRegion false c)) ||
         (candToRegion false c).is_empty) = true
    · rw [if_pos hskip]
      obtain ⟨c1, c2, c3, c4, c5, c6, c7⟩ := ih acc hLtail hS hO hP1 hP2
      refine ⟨c1, c2, c3, c4, ?_, ?_, by simpa using Nat.le_succ_of_le c7⟩
      · intro p hp
        refine c5 p ?_
        rcases hp with ⟨c', hc', hne', hcq', hm'⟩ | hp
        · rcases List.mem_cons.mp hc' with rfl | hmem
          · -- the skipped head is our witness: a coordinate twin is already stored
            simp only [Bool.or_eq_true] at hskip
            rcases hskip with (hdup | hdup) | hem
            · rcases List.any_eq_true.mp hdup with ⟨o, ho, heq⟩
              refine Or.inr ⟨o, ho, ?_⟩
              exact (eqCoords_memPt heq p).mpr hm'
            · rcases List.any_eq_true.mp hdup with ⟨s0, hs0, heq⟩
              obtain ⟨c'', _, _, _, hnq'', rfl⟩ := hS s0 hs0
              exfalso
              refine hnq'' ?_
              show q.contains (candToRegion false c'') = true
              rw [contains_candToRegion_on q false r.«on»]
              rw [eqCoords_contains heq q]
              exact hcq'
            · exact absurd ((candToRegion_is_empty false c').mpr hne') (by simp [hem])
          · exact Or.inl ⟨c', hmem, hne', hcq', hm'⟩
        · exact Or.inr hp
      · intro p hp
        refine c6 p ?_
        rcases hp with ⟨c', hc', hne', hcr', hnq', hm'⟩ | hp
        · rcases List.mem_cons.mp hc' with rfl | hmem
          · simp only [Bool.or_eq_true] at hskip
            rcases hskip with (hdup | hdup) | hem
            · rcases List.any_eq_true.mp hdup with ⟨o, ho, heq⟩
              obtain ⟨c'', _, _, hq'', rfl⟩ := hO o ho
              exfalso
              refine hnq' ?_
              show q.contains (candToRegion false c') = true
              rw [← eqCoords_contains heq q]
              rw [contains_candToRegion_on q q.«on» false]
              exact hq''
            · rcases List.any_eq_true.mp hdup with ⟨s0, hs0, heq⟩
              refine Or.inr ⟨s0, hs0, ?_⟩
              exact (eqCoords_memPt heq p).mpr hm'
            · exact absurd ((candToRegion_is_empty false c').mpr hne') (by simp [hem])
          · exact Or.inl ⟨c', hmem, hne', hcr', hnq', hm'⟩
        · exact Or.inr hp
    · rw [if_neg hskip]
      rw [Bool.or_eq_true, Bool.or_eq_true, not_or, not_or] at hskip
      obtain ⟨⟨hnd2, hnd1⟩, hnem⟩ := hskip
      have hNEc : NEc c :=
        (candToRegion_is_empty false c).mp (Bool.not_eq_true _ |>.mp hnem)
      have hnd2' : ∀ o ∈ acc.2, ¬ o.eqCoords (candToRegion false c) = true := by
        intro o ho
        exact List.any_eq_false.mp (Bool.not_eq_true _ |>.mp hnd2) o ho
      have hnd1' : ∀ s0 ∈ acc.1, ¬ s0.eqCoords (candToRegion false c) = true := by
        intro s0 hs0
        exact List.any_eq_false.mp (Bool.not_eq_true _ |>.mp hnd1) s0 hs0
      by_cases hQ : q.contains (candToRegion false c) = true
      · rw [if_pos hQ]
        have hO2 : OtherShape r q (acc.2 ++ [candToRegion q.«on» c]) := by
          intro o ho
          rcases List.mem_append.mp ho with ho | ho
          · exact hO o ho
          · rcases List.mem_singleton.mp ho with rfl
            exact ⟨c, hcCand, hNEc, hQ, rfl⟩
        have hP2' : (acc.2 ++ [candToRegion q.«on» c]).Pairwise DisjointR := by
          rw [List.pairwise_append]
          refine ⟨hP2, List.pairwise_singleton _ _, ?_⟩
          intro o ho x hxm
          rcases List.mem_singleton.mp hxm with rfl
          obtain ⟨c'', hc'', hne'', _, rfl⟩ := hO o ho
          have hne : c'' ≠ c := by
            intro hcon
            refine hnd2' _ ho ?_
            subst hcon
            exact eqCoords_candToRegion.mpr rfl
          exact cand_distinct_disjoint hr hq hx hc'' hcCand hne'' hNEc hne _ _
        obtain ⟨c1, c2, c3, c4, c5, c6, c7⟩ :=
          ih (acc.1, acc.2 ++ [candToRegion q.«on» c]) hLtail hS hO2 hP1 hP2'
        refine ⟨c1, c2, c3, c4, ?_, ?_, ?_⟩
        · intro p hp
          refine c5 p ?_
          rcases hp with ⟨c', hc', hne', hcq', hm'⟩ | hp
          · rcases List.mem_cons.mp hc' with rfl | hmem
            · refine Or.inr ?_
              refine ⟨candToRegion q.«on» c', List.mem_append_right _ (List.mem_singleton.mpr rfl), ?_⟩
              rw [memPt_candToRegion] at hm' ⊢
              exact hm'
            · exact Or.inl ⟨c', hmem, hne', hcq', hm'⟩
          · exact Or.inr ⟨hp.choose, List.mem_append_left _ hp.choose_spec.1, hp.choose_spec.2⟩
        · intro p hp
          refine c6 p ?_
          rcases hp with ⟨c', hc', hne', hcr', hnq', hm'⟩ | hp
          · rcases List.mem_cons.mp hc' with rfl | hmem
            · exact absurd hQ hnq'
            · exact Or.inl ⟨c', hmem, hne', hcr', hnq', hm'⟩
          · exact Or.inr hp
        · simp only [List.length_append, List.length_cons, List.length_nil] at c7 ⊢
          omega
      · by_cases hR : r.contains (candToRegion false c) = true
        · rw [if_neg hQ, if_pos hR]
          have hS2 : SelfShape r q (acc.1 ++ [candToRegion r.«on» c]) := by
            intro s0 hs0
            rcases List.mem_append.mp hs0 with hs0 | hs0
            · exact hS s0 hs0
            · rcases List.mem_singleton.mp hs0 with rfl
              exact ⟨c, hcCand, hNEc, hR, hQ, rfl⟩
          have hP1' : (acc.1 ++ [candToRegion r.«on» c]).Pairwise DisjointR := by
            rw [List.pairwise_append]
            refine ⟨hP1, List.pairwise_singleton _ _, ?_⟩
            intro s0 hs0 x hxm
            rcases List.mem_singleton.mp hxm with rfl
            obtain ⟨c'', hc'', hne'', _, _, rfl⟩ := hS s0 hs0
            have hne : c'' ≠ c := by
              intro hcon
              refine hnd1' _ hs0 ?_
              subst hcon
              exact eqCoords_candToRegion.mpr rfl
            exact cand_distinct_disjoint hr hq hx hc'' hcCand hne'' hNEc hne _ _
          obtain ⟨c1, c2, c3, c4, c5, c6, c7⟩ :=
            ih (acc.1 ++ [candToRegion r.«on» c], acc.2) hLtail hS2 hO hP1' hP2
          refine ⟨c1, c2, c3, c4, ?_, ?_, ?_⟩
          · intro p hp
            refine c5 p ?_
            rcases hp with ⟨c', hc', hne', hcq', hm'⟩ | hp
            · rcases List.mem_cons.mp hc' with rfl | hmem
              · exact absurd hcq' hQ
              · exact Or.inl ⟨c', hmem, hne', hcq', hm'⟩
            · exact Or.inr hp
          · intro p hp
            refine c6 p ?_
            rcases hp with ⟨c', hc', hne', hcr', hnq', hm'⟩ | hp
            · rcases List.mem_cons.mp hc' with rfl | hmem
              · refine Or.inr ?_
                refine ⟨candToRegion r.«on» c', List.mem_append_right _ (List.mem_singleton.mpr rfl), ?_⟩
                rw [memPt_candToRegion] at hm' ⊢
                exact hm'
              · exact Or.inl ⟨c', hmem, hne', hcr', hnq', hm'⟩
            · exact Or.inr ⟨hp.choose, List.mem_append_left _ hp.choose_spec.1, hp.choose_spec.2⟩
          · simp only [List.length_cons] at c7 ⊢
            omega
        · rw [if_neg hQ, if_neg hR]
          obtain ⟨c1, c2, c3, c4, c5, c6, c7⟩ := ih acc hLtail hS hO hP1 hP2
          refine ⟨c1, c2, c3, c4, ?_, ?_, by simpa using Nat.le_succ_of_le c7⟩
          · intro p hp
            refine c5 p ?_
            rcases hp with ⟨c', hc', hne', hcq', hm'⟩ | hp
            · rcases List.mem_cons.mp hc' with rfl | hmem
              · exact absurd hcq' hQ
              · exact Or.inl ⟨c', hmem, hne', hcq', hm'⟩
            · exact Or.inr hp
          · intro p hp
            refine c6 p ?_
            rcases hp with ⟨c', hc', hne', hcr', hnq', hm'⟩ | hp
            · rcases List.mem_cons.mp hc' with rfl | hmem
              · exact absurd hcr' hR
              · exact Or.inl ⟨c', hmem, hne', hcr', hnq', hm'⟩
            · exact Or.inr hp


/-! ### Specification of `Region::split` -/

/-- The candidate grid always has 27 entries. -/
theorem candBoxes_length (r q : Region) : (candBoxes r q).length = 27 := rfl

/-- The full specification of `Region::split` on nonempty intersecting
regions: shapes, pairwise disjointness, coverage of `q` by
`other_regions` and of `r ∖ q` by `self_regions`, and the size bound. -/
theorem split_spec {r q : Region} (hr : NonemptyR r) (hq : NonemptyR q)
    (hx : r.intersects q = true) :
    SelfShape r q (r.split q).1 ∧ OtherShape r q (r.split q).2 ∧
    (r.split q).1.Pairwise DisjointR ∧ (r.split q).2.Pairwise DisjointR ∧
    (∀ p : Pt, memPt p q → coveredL (r.split q).2 p) ∧
    (∀ p : Pt, memPt p r → ¬ memPt p q → coveredL (r.split q).1 p) ∧
    (r.split q).2.length ≤ 27 := by
  have hmain := splitFold_main hr hq hx (candBoxes r q) ([], [])
    (fun c h => h) (fun s h => absurd h (List.not_mem_nil s))
    (fun o h => absurd h (List.not_mem_nil o)) List.Pairwise.nil List.Pairwise.nil
  obtain ⟨c1, c2, c3, c4, c5, c6, c7⟩ := hmain
  refine ⟨c1, c2, c3, c4, ?_, ?_, ?_⟩
  · intro p hp
    obtain ⟨c, hc, hne, hcq, hm⟩ := cand_cover_q hr hq hx p hp
    exact c5 p (Or.inl ⟨c, hc, hne, hcq, hm⟩)
  · intro p hp hnp
    obtain ⟨c, hc, hne, hcr, hnq, hm⟩ := cand_cover_r_minus_q hr hq hx p hp hnp
    exact c6 p (Or.inl ⟨c, hc, hne, hcr, hnq, hm⟩)
  · have := c7
    rw [candBoxes_length] at this
    simpa using this

/-! ### Helper lemmas for the insertion loop -/

theorem coveredL_cons (x : Region) (l : List Region) (p : Pt) :
    coveredL (x :: l) p ↔ memPt p x ∨ coveredL l p := by
  unfold coveredL
  simp only [List.mem_cons]
  constructor
  · rintro ⟨r0, rfl | h, hm⟩
    · exact Or.inl hm
    · exact Or.inr ⟨r0, h, hm⟩
  · rintro (hm | ⟨r0, h, hm⟩)
    · exact ⟨x, Or.inl rfl, hm⟩
    · exact ⟨r0, Or.inr h, hm⟩

theorem coveredL_nil (p : Pt) : coveredL [] p ↔ False := by
  constructor
  · rintro ⟨r0, h, _⟩
    exact List.not_mem_nil r0 h
  · intro h
    cases h

/-- Regions whose `intersects` test fails share no cube. -/
theorem disjoint_of_not_intersects {a b : Region} (h : a.intersects b = false) :
    DisjointR a b := by
  intro p hp
  rw [intersects_of_common hp.1 hp.2] at h
  cases h

/-- Disjointness transfers along cube-wise inclusion (right argument). -/
theorem disjoint_mono_right {a b c : Region} (h : DisjointR a b)
    (hsub : ∀ p : Pt, memPt p c → memPt p b) : DisjointR a c :=
  fun p hp => h p ⟨hp.1, hsub p hp.2⟩

/-- Endpoint containment is transitive. -/
theorem contains_trans {a b c : Region} (h1 : a.contains b = true)
    (h2 : b.contains c = true) : a.contains c = true := by
  rw [Region.contains, decide_eq_true_eq] at h1 h2 ⊢
  omega

/-- Candidate regions are nonempty exactly when the candidate is. -/
theorem nonemptyR_candToRegion (b : Bool) (c : Cand) :
    NonemptyR (candToRegion b c) ↔ NEc c := by
  unfold NonemptyR candToRegion NEc neIv
  simp only [Region.xr_mk, Region.yr_mk, Region.zr_mk]

/-- A failed `findIntersect` means no stored region intersects. -/
theorem findIntersect_none {l : List Region} {nr : Region}
    (h : findIntersect l nr = none) : ∀ x ∈ l, x.intersects nr = false := by
  induction l with
  | nil => intro x hx; exact absurd hx (List.not_mem_nil x)
  | cons y ys ih =>
    rw [findIntersect] at h
    intro x hx
    by_cases hy : y.intersects nr = true
    · rw [if_pos hy] at h; cases h
    · rw [if_neg hy] at h
      rcases List.mem_cons.mp hx with rfl | hx2
      · exact Bool.not_eq_true _ |>.mp hy
      · cases hfi : findIntersect ys nr with
        | none => exact ih hfi x hx2
        | some pr => rw [hfi] at h; cases h

/-- A successful `findIntersect` returns an intersecting element and its
position: the list decomposes around it. -/
theorem findIntersect_some {l : List Region} {nr : Region} {i : Nat} {r0 : Region}
    (h : findIntersect l nr = some (i, r0)) :
    ∃ pre post, l = pre ++ r0 :: post ∧ i = pre.length ∧ r0.intersects nr = true := by
  induction l generalizing i with
  | nil => rw [findIntersect] at h; cases h
  | cons y ys ih =>
    rw [findIntersect] at h
    by_cases hy : y.intersects nr = true
    · rw [if_pos hy] at h
      have h' : some ((0 : Nat), y) = some (i, r0) := h
      cases h'
      exact ⟨[], ys, rfl, rfl, hy⟩
    · rw [if_neg hy] at h
      cases hfi : findIntersect ys nr with
      | none => rw [hfi] at h; cases h
      | some pr =>
        rw [hfi] at h
        have h' : some (pr.1 + 1, pr.2) = some (i, r0) := h
        cases h'
        obtain ⟨pre, post, rfl, hlen, hint⟩ := ih hfi
        exact ⟨y :: pre, post, rfl, by simp [hlen], hint⟩

/-- Erasing at the pivot of a decomposition removes the pivot. -/
theorem eraseIdx_at {α : Type} (pre : List α) (x : α) (rest : List α) :
    (pre ++ x :: rest).eraseIdx pre.length = pre ++ rest := by
  induction pre with
  | nil => rfl
  | cons y ys ih => simpa [List.eraseIdx] using ih


/-! ### The insertion loop invariant -/

/-- Invariant of the stored top-level regions: pairwise disjoint, nonempty,
all in state `on`, childless, and inside the bounding region `D`. -/
def StoredInv (D : Region) (S : List Region) : Prop :=
  S.Pairwise DisjointR ∧
  ∀ x ∈ S, NonemptyR x ∧ x.«on» = true ∧ x.sub_regions = [] ∧ D.contains x = true

/-- Invariant of the work queue: pairwise disjoint, nonempty, all carrying
the inserted command's state `b`, childless, inside `D`. -/
def QueueInv (D : Region) (b : Bool) (Q : List Region) : Prop :=
  Q.Pairwise DisjointR ∧
  ∀ x ∈ Q, NonemptyR x ∧ x.«on» = b ∧ x.sub_regions = [] ∧ D.contains x = true

set_option maxRecDepth 8000 in
/-- Correctness of the `add_region` loop: it preserves the stored
invariant, and the cubes covered afterwards are those covered before minus
the queue (plus the queue, when inserting an `on` command). -/
theorem addLoop_spec (D : Region) (b : Bool) :
    ∀ (fuel : Nat) (self : Region) (Q : List Region) (root' : Region),
      self.«on» = false →
      StoredInv D self.sub_regions → QueueInv D b Q →
      addLoop self fuel Q = some root' →
      root'.«on» = false ∧ root'.xr = self.xr ∧ root'.yr = self.yr ∧
      root'.zr = self.zr ∧ StoredInv D root'.sub_regions ∧
      (∀ p : Pt, coveredL root'.sub_regions p ↔
        ((coveredL self.sub_regions p ∧ ¬ coveredL Q p) ∨ (b = true ∧ coveredL Q p))) := by
  intro fuel
  induction fuel with
  | zero =>
    intro self Q root' _ _ _ h
    rw [addLoop] at h
    cases h
  | succ fuel ih =>
    intro self Q root' hself hSt hQu h
    cases Q with
    | nil =>
      rw [addLoop] at h
      have h' : some self = some root' := h
      cases h'
      refine ⟨hself, rfl, rfl, rfl, hSt, ?_⟩
      intro p
      have hnil := coveredL_nil p
      tauto
    | cons nr rest =>
      rw [addLoop] at h
      dsimp only at h
      obtain ⟨hQp, hQm⟩ := hQu
      obtain ⟨hnrNE, hnrOn, hnrSub, hnrD⟩ := hQm nr (List.mem_cons_self nr rest)
      have hnrRest : ∀ x ∈ rest, DisjointR nr x :=
        (List.pairwise_cons.mp hQp).1
      have hQuRest : QueueInv D b rest :=
        ⟨(List.pairwise_cons.mp hQp).2, fun x hx => hQm x (List.mem_cons_of_mem nr hx)⟩
      obtain ⟨hStP, hStM⟩ := hSt
      set S := self.sub_regions with hSdef
      set subs := S.filter (fun r => ! nr.contains r) with hsubs
      have hsubsSub : ∀ x ∈ subs, x ∈ S := fun x hx => (List.mem_filter.mp hx).1
      have hStSubs : StoredInv D subs :=
        ⟨hStP.sublist (List.filter_sublist S), fun x hx => hStM x (hsubsSub x hx)⟩
      have hcovSubs : ∀ p : Pt, coveredL subs p → coveredL S p :=
        fun p ⟨x, hx, hm⟩ => ⟨x, hsubsSub x hx, hm⟩
      have hcovSubsIff : ∀ p : Pt, ¬ memPt p nr → (coveredL subs p ↔ coveredL S p) := by
        intro p hpn
        refine ⟨hcovSubs p, ?_⟩
        rintro ⟨x, hx, hm⟩
        refine ⟨x, ?_, hm⟩
        rw [hsubs, List.mem_filter]
        refine ⟨hx, ?_⟩
        show (! nr.contains x) = true
        cases hcon : nr.contains x with
        | false => rfl
        | true => exact absurd (memPt_of_contains hcon hm) hpn
      cases hfi : findIntersect subs nr with
      | none =>
        rw [hfi] at h
        dsimp only at h
        have hnone := findIntersect_none hfi
        have hcovSubsNr : ∀ p : Pt, memPt p nr → ¬ coveredL subs p := by
          rintro p hpn ⟨x, hx, hm⟩
          have hfalse := hnone x hx
          rw [intersects_of_common hm hpn] at hfalse
          cases hfalse
        by_cases hcond : (nr.«on» != self.«on») = true
        · rw [if_pos hcond] at h
          have hb : b = true := by
            rw [hself, hnrOn] at hcond
            revert hcond
            cases b <;> simp
          have hStNew : StoredInv D (subs ++ [nr]) := by
            refine ⟨?_, ?_⟩
            · rw [List.pairwise_append]
              refine ⟨hStSubs.1, List.pairwise_singleton _ _, ?_⟩
              intro x hx y hy
              rcases List.mem_singleton.mp hy with rfl
              exact disjoint_of_not_intersects (hnone x hx)
            · intro x hx
              rcases List.mem_append.mp hx with hx | hx
              · exact hStSubs.2 x hx
              · rcases List.mem_singleton.mp hx with rfl
                exact ⟨hnrNE, by rw [hnrOn, hb], hnrSub, hnrD⟩
          obtain ⟨i1, i2, i3, i4, i5, i6⟩ :=
            ih (Region.mk self.«on» self.xr self.yr self.zr (subs ++ [nr])) rest root'
              (by rw [Region.on_mk]; exact hself)
              (by rw [Region.sub_regions_mk]; exact hStNew) hQuRest h
          refine ⟨i1, i2, i3, i4, i5, ?_⟩
          intro p
          rw [i6 p]
          simp only [Region.sub_regions_mk]
          rw [coveredL_append, coveredL_cons, coveredL_cons, coveredL_nil]
          have e3 : memPt p nr → ¬ coveredL rest p := by
            rintro hpn ⟨x, hx, hm⟩
            exact hnrRest x hx p ⟨hpn, hm⟩
          by_cases hpn : memPt p nr
          · have := hcovSubsIff p
            have := e3 hpn
            have hbs : b = true := hb
            tauto
          · have := hcovSubsIff p hpn
            tauto
        · rw [if_neg hcond] at h
          have hb : b = false := by
            rw [hself, hnrOn] at hcond
            revert hcond
            cases b <;> simp
          obtain ⟨i1, i2, i3, i4, i5, i6⟩ :=
            ih (Region.mk self.«on» self.xr self.yr self.zr subs) rest root'
              (by rw [Region.on_mk]; exact hself)
              (by rw [Region.sub_regions_mk]; exact hStSubs) hQuRest h
          refine ⟨i1, i2, i3, i4, i5, ?_⟩
          intro p
          rw [i6 p]
          simp only [Region.sub_regions_mk]
          rw [coveredL_cons]
          subst hb
          by_cases hpn : memPt p nr
          · have h1 := hcovSubsNr p hpn
            simp only [Bool.false_eq_true, false_and, or_false] at *
            tauto
          · have h1 := hcovSubsIff p hpn
            simp only [Bool.false_eq_true, false_and, or_false] at *
            tauto
      | some ir =>
        rw [hfi] at h
        dsimp only at h
        have hfi' : findIntersect subs nr = some (ir.1, ir.2) := hfi
        obtain ⟨pre, post, hdecomp, hidx, hint⟩ := findIntersect_some hfi'
        have hr0mem : ir.2 ∈ subs := by
          rw [hdecomp]
          exact List.mem_append_right pre (List.mem_cons_self _ post)
        obtain ⟨hr0NE, hr0On, hr0Sub, hr0D⟩ := hStSubs.2 ir.2 hr0mem
        obtain ⟨spS, spO, spP1, spP2, spCovO, spCovS, _⟩ := split_spec hr0NE hnrNE hint
        -- facts about the self fragments
        have hFragS : ∀ x ∈ (ir.2.split nr).1, NonemptyR x ∧ x.«on» = true ∧
            x.sub_regions = [] ∧ D.contains x = true ∧
            (∀ p : Pt, memPt p x → memPt p ir.2) ∧ DisjointR x nr := by
          intro x hx
          obtain ⟨c, hc, hne, hcr, hnq, rfl⟩ := spS x hx
          refine ⟨(nonemptyR_candToRegion _ c).mpr hne, by rw [candToRegion_on, hr0On],
            candToRegion_subs _ c, ?_, ?_, ?_⟩
          · refine contains_trans hr0D ?_
            rw [contains_candToRegion_on ir.2 (Region.«on» ir.2) false]
            exact hcr
          · intro p hp
            exact cand_sub hcr hp
          · exact cand_not_contains_disjoint_q hr0NE hnrNE hint hc hne hnq _
        -- facts about the queued fragments
        have hFragO : ∀ x ∈ (ir.2.split nr).2, NonemptyR x ∧ x.«on» = b ∧
            x.sub_regions = [] ∧ D.contains x = true ∧
            (∀ p : Pt, memPt p x → memPt p nr) := by
          intro x hx
          obtain ⟨c, hc, hne, hcq, rfl⟩ := spO x hx
          refine ⟨(nonemptyR_candToRegion _ c).mpr hne, by rw [candToRegion_on, hnrOn],
            candToRegion_subs _ c, ?_, ?_⟩
          · refine contains_trans hnrD ?_
            rw [contains_candToRegion_on nr (Region.«on» nr) false]
            exact hcq
          · intro p hp
            exact cand_sub hcq hp
        -- coverage of the two fragment families
        have f1 : ∀ p : Pt, coveredL (ir.2.split nr).2 p ↔ memPt p nr := by
          intro p
          refine ⟨?_, spCovO p⟩
          rintro ⟨x, hx, hm⟩
          exact (hFragO x hx).2.2.2.2 p hm
        have f2 : ∀ p : Pt, coveredL (ir.2.split nr).1 p ↔ (memPt p ir.2 ∧ ¬ memPt p nr) := by
          intro p
          constructor
          · rintro ⟨x, hx, hm⟩
            exact ⟨(hFragS x hx).2.2.2.2.1 p hm, fun hpn => (hFragS x hx).2.2.2.2.2 p ⟨hm, hpn⟩⟩
          · rintro ⟨hp1, hp2⟩
            exact spCovS p hp1 hp2
        -- the new stored list
        have hS2eq : (subs ++ (ir.2.split nr).1).eraseIdx ir.1 =
            pre ++ (post ++ (ir.2.split nr).1) := by
          rw [hdecomp, hidx, List.append_assoc, List.cons_append]
          exact eraseIdx_at pre ir.2 (post ++ (ir.2.split nr).1)
        -- disjointness inside the old list, with the pivot removed
        have hprepost : (pre ++ post).Pairwise DisjointR := by
          refine (hStSubs.1).sublist ?_
          rw [hdecomp]
          exact List.Sublist.append_left (List.sublist_cons_self ir.2 post) pre
        have hpivot : ∀ x ∈ pre ++ post, DisjointR x ir.2 := by
          have hp2 := hStSubs.1
          rw [hdecomp, List.pairwise_append] at hp2
          intro x hx
          rcases List.mem_append.mp hx with hx | hx
          · exact hp2.2.2 x hx ir.2 (List.mem_cons_self _ post)
          · exact ((List.pairwise_cons.mp hp2.2.1).1 x hx).symm
        have hStNew : StoredInv D (pre ++ (post ++ (ir.2.split nr).1)) := by
          refine ⟨?_, ?_⟩
          · have hpp : (pre ++ post).Pairwise DisjointR := hprepost
            rw [List.pairwise_append] at hpp ⊢
            refine ⟨hpp.1, ?_, ?_⟩
            · rw [List.pairwise_append]
              refine ⟨hpp.2.1, spP1, ?_⟩
              intro x hx y hy
              refine disjoint_mono_right
                (hpivot x (List.mem_append_right pre hx)) ?_
              exact (hFragS y hy).2.2.2.2.1
            · intro x hx y hy
              rcases List.mem_append.mp hy with hy | hy
              · exact hpp.2.2 x hx y hy
              · refine disjoint_mono_right
                  (hpivot x (List.mem_append_left post hx)) ?_
                exact (hFragS y hy).2.2.2.2.1
          · intro x hx
            rcases List.mem_append.mp hx with hx | hx
            · exact hStSubs.2 x (by rw [hdecomp]; exact List.mem_append_left _ hx)
            · rcases List.mem_append.mp hx with hx | hx
              · exact hStSubs.2 x
                  (by rw [hdecomp]
                      exact List.mem_append_right _ (List.mem_cons_of_mem _ hx))
              · obtain ⟨h1, h2, h3, h4, _⟩ := hFragS x hx
                exact ⟨h1, h2, h3, h4⟩
        -- the new queue
        have hQuNew : QueueInv D b ((ir.2.split nr).2.reverse ++ rest) := by
          refine ⟨?_, ?_⟩
          · rw [List.pairwise_append]
            refine ⟨?_, (List.pairwise_cons.mp hQp).2, ?_⟩
            · rw [List.pairwise_reverse]
              exact spP2.imp (fun h => h.symm)
            · intro x hx y hy
              rw [List.mem_reverse] at hx
              exact fun p hp => hnrRest y hy p ⟨(hFragO x hx).2.2.2.2 p hp.1, hp.2⟩
          · intro x hx
            rcases List.mem_append.mp hx with hx | hx
            · rw [List.mem_reverse] at hx
              obtain ⟨h1, h2, h3, h4, _⟩ := hFragO x hx
              exact ⟨h1, h2, h3, h4⟩
            · exact hQuRest.2 x hx
        rw [hS2eq] at h
        obtain ⟨i1, i2, i3, i4, i5, i6⟩ :=
          ih (Region.mk self.«on» self.xr self.yr self.zr
              (pre ++ (post ++ (ir.2.split nr).1)))
            ((ir.2.split nr).2.reverse ++ rest) root'
            (by rw [Region.on_mk]; exact hself)
            (by rw [Region.sub_regions_mk]; exact hStNew) hQuNew h
        refine ⟨i1, i2, i3, i4, i5, ?_⟩
        intro p
        rw [i6 p]
        simp only [Region.sub_regions_mk]
        simp only [coveredL_append, coveredL_reverse, coveredL_cons]
        rw [f1 p, f2 p]
        by_cases hpn : memPt p nr
        · constructor
          · rintro (⟨_, hno⟩ | ⟨hbt, _⟩)
            · exact absurd (Or.inl hpn) hno
            · exact Or.inr ⟨hbt, Or.inl hpn⟩
          · rintro (⟨_, hno⟩ | ⟨hbt, _⟩)
            · exact absurd (Or.inl hpn) hno
            · exact Or.inr ⟨hbt, Or.inl hpn⟩
        · have h4 := hcovSubsIff p hpn
          have h5 : coveredL subs p ↔ coveredL pre p ∨ coveredL post p ∨ memPt p ir.2 := by
            rw [hdecomp]
            rw [coveredL_append, coveredL_cons]
            constructor
            · rintro (h | hm | h)
              · exact Or.inl h
              · exact Or.inr (Or.inr hm)
              · exact Or.inr (Or.inl h)
            · rintro (h | h | hm)
              · exact Or.inl h
              · exact Or.inr (Or.inr h)
              · exact Or.inr (Or.inl hm)
          have hAS : (coveredL pre p ∨ coveredL post p ∨ (memPt p ir.2 ∧ ¬ memPt p nr)) ↔
              coveredL S p := by
            rw [← h4, h5]
            constructor
            · rintro (h | h | hm)
              · exact Or.inl h
              · exact Or.inr (Or.inl h)
              · exact Or.inr (Or.inr hm.1)
            · rintro (h | h | hm)
              · exact Or.inl h
              · exact Or.inr (Or.inl h)
              · exact Or.inr (Or.inr ⟨hm, hpn⟩)
          rw [hAS]

/-! ### Counting cubes with finite sets -/

/-- The finite set of cubes of a region's box. -/
def boxFinset (r : Region) : Finset Pt :=
  Finset.Icc r.xr.1 r.xr.2 ×ˢ (Finset.Icc r.yr.1 r.yr.2 ×ˢ Finset.Icc r.zr.1 r.zr.2)

/-- The finite set of cubes covered by a list of regions. -/
def coveredFinset (S : List Region) : Finset Pt :=
  S.foldr (fun r acc => boxFinset r ∪ acc) ∅

theorem mem_boxFinset {p : Pt} {r : Region} : p ∈ boxFinset r ↔ memPt p r := by
  unfold boxFinset memPt
  rw [Finset.mem_product, Finset.mem_product, Finset.mem_Icc, Finset.mem_Icc, Finset.mem_Icc]
  tauto

theorem mem_coveredFinset {p : Pt} {S : List Region} :
    p ∈ coveredFinset S ↔ coveredL S p := by
  induction S with
  | nil =>
    rw [coveredL_nil]
    simp [coveredFinset]
  | cons r rs ih =>
    rw [coveredL_cons, ← ih, ← mem_boxFinset]
    unfold coveredFinset
    rw [List.foldr_cons, Finset.mem_union]

theorem coveredFinset_subset {A B : List Region}
    (h : ∀ p : Pt, coveredL A p → coveredL B p) : coveredFinset A ⊆ coveredFinset B := by
  intro p hp
  rw [mem_coveredFinset] at hp ⊢
  exact h p hp

/-- The cube count of a nonempty box is its volume. -/
theorem card_boxFinset {r : Region} (h : NonemptyR r) :
    ((boxFinset r).card : Int) = Region.self_volume r := by
  unfold boxFinset Region.self_volume
  rw [Finset.card_product, Finset.card_product, Int.card_Icc, Int.card_Icc, Int.card_Icc]
  unfold NonemptyR at h
  push_cast [Int.toNat_of_nonneg (by omega : (0:Int) ≤ r.xr.2 + 1 - r.xr.1),
    Int.toNat_of_nonneg (by omega : (0:Int) ≤ r.yr.2 + 1 - r.yr.1),
    Int.toNat_of_nonneg (by omega : (0:Int) ≤ r.zr.2 + 1 - r.zr.1)]
  ring

/-- Summed intersection cards of a pairwise disjoint family collapse to the
intersection with its union. -/
theorem sum_inter_card (X : Finset Pt) :
    ∀ (L : List Region), L.Pairwise DisjointR →
      (L.map (fun o => ((boxFinset o) ∩ X).card)).sum = ((coveredFinset L) ∩ X).card := by
  intro L
  induction L with
  | nil => simp [coveredFinset]
  | cons o L ih =>
    intro hP
    rw [List.map_cons, List.sum_cons, ih (List.pairwise_cons.mp hP).2]
    have hcf : coveredFinset (o :: L) = boxFinset o ∪ coveredFinset L := by
      unfold coveredFinset
      rw [List.foldr_cons]
    rw [hcf, Finset.union_inter_distrib_right]
    rw [Finset.card_union_of_disjoint]
    rw [Finset.disjoint_left]
    intro p hp hp2
    rw [Finset.mem_inter, mem_boxFinset] at hp
    rw [Finset.mem_inter, mem_coveredFinset] at hp2
    obtain ⟨x, hx, hm⟩ := hp2.1
    exact (List.pairwise_cons.mp hP).1 x hx p ⟨hp.1, hm⟩

/-- For a disjoint family of nonempty childless non-world regions, the total
`volume` is the number of covered cubes. -/
theorem volumeList_eq_card :
    ∀ (S : List Region), S.Pairwise DisjointR →
      (∀ x ∈ S, NonemptyR x ∧ x.sub_regions = [] ∧ x.is_world = false) →
      volumeList S = ((coveredFinset S).card : Int) := by
  intro S
  induction S with
  | nil =>
    intro _ _
    rw [volumeList]
    simp [coveredFinset]
  | cons r rs ih =>
    intro hP hM
    obtain ⟨hNE, hSub, hW⟩ := hM r (List.mem_cons_self r rs)
    rw [volumeList]
    have hvol : r.volume = Region.self_volume r := by
      obtain ⟨b, xr, yr, zr, subs⟩ := r
      rw [Region.sub_regions_mk] at hSub
      subst hSub
      rw [volume_leaf, hW]
      rw [if_neg (by simp)]
    have hcf : coveredFinset (r :: rs) = boxFinset r ∪ coveredFinset rs := by
      unfold coveredFinset
      rw [List.foldr_cons]
    rw [hvol, hcf, Finset.card_union_of_disjoint, ih (List.pairwise_cons.mp hP).2
      (fun x hx => hM x (List.mem_cons_of_mem r hx))]
    · rw [← card_boxFinset hNE]
      push_cast
      ring
    · rw [Finset.disjoint_left]
      intro p hp hp2
      rw [mem_boxFinset] at hp
      rw [mem_coveredFinset] at hp2
      obtain ⟨x, hx, hm⟩ := hp2
      exact (List.pairwise_cons.mp hP).1 x hx p ⟨hp, hm⟩

/-- A bounding region comfortably inside the `i64` range. -/
def SmallBox (D : Region) : Prop :=
  -(2 ^ 62) ≤ D.xr.1 ∧ D.xr.2 ≤ 2 ^ 62 ∧ -(2 ^ 62) ≤ D.yr.1 ∧ D.yr.2 ≤ 2 ^ 62 ∧
  -(2 ^ 62) ≤ D.zr.1 ∧ D.zr.2 ≤ 2 ^ 62

instance (D : Region) : Decidable (SmallBox D) := by
  unfold SmallBox
  infer_instance

/-- Regions inside a small bounding region are not the world. -/
theorem not_world_of_bounded {D x : Region} (hD : SmallBox D)
    (hx : D.contains x = true) : x.is_world = false := by
  rw [Region.contains, decide_eq_true_eq] at hx
  rw [Region.is_world]
  rw [decide_eq_false_iff_not]
  intro hcon
  obtain ⟨h1, h2, h3⟩ := hcon
  unfold SmallBox at hD
  rw [Prod.ext_iff] at h1
  unfold Region.world I64_MIN I64_MAX at h1
  omega

/-- `count_on` of a valid stored state counts the covered cubes. -/
theorem count_on_eq_card {D root : Region} (hD : SmallBox D)
    (hSt : StoredInv D root.sub_regions) :
    count_on root = ((coveredFinset root.sub_regions).card : Int) := by
  rw [count_on]
  refine volumeList_eq_card root.sub_regions hSt.1 ?_
  intro x hx
  obtain ⟨h1, _, h3, h4⟩ := hSt.2 x hx
  exact ⟨h1, h3, not_world_of_bounded hD h4⟩


/-! ### Termination of the insertion loop -/

/-- More fuel never changes a successful run. -/
theorem addLoop_mono : ∀ (f f' : Nat) (self : Region) (Q : List Region) (root' : Region),
    f ≤ f' → addLoop self f Q = some root' → addLoop self f' Q = some root' := by
  intro f
  induction f with
  | zero =>
    intro f' self Q root' _ h
    rw [addLoop] at h
    cases h
  | succ f ihf =>
    intro f' self Q root' hle h
    obtain ⟨f'', rfl⟩ : ∃ m, f' = m + 1 := ⟨f' - 1, by omega⟩
    cases Q with
    | nil =>
      rw [addLoop] at h
      rw [addLoop]
      exact h
    | cons nr rest =>
      rw [addLoop] at h
      rw [addLoop]
      dsimp only at h ⊢
      cases hfi : findIntersect (self.sub_regions.filter (fun r => ! nr.contains r)) nr with
      | some ir =>
        rw [hfi] at h
        exact ihf f'' _ _ _ (by omega) h
      | none =>
        rw [hfi] at h
        dsimp only at h ⊢
        by_cases hcond : (nr.«on» != self.«on») = true
        · rw [if_pos hcond] at h ⊢
          exact ihf f'' _ _ _ (by omega) h
        · rw [if_neg hcond] at h ⊢
          exact ihf f'' _ _ _ (by omega) h

/-- The work measure of a queue against the stored regions. -/
def measureQ (S Q : List Region) : Nat :=
  (Q.map (fun q => ((boxFinset q) ∩ (coveredFinset S)).card)).sum

theorem measureQ_cons (S : List Region) (q : Region) (Q : List Region) :
    measureQ S (q :: Q) = ((boxFinset q) ∩ (coveredFinset S)).card + measureQ S Q := by
  unfold measureQ
  rw [List.map_cons, List.sum_cons]

/-- The measure is monotone in the stored coverage, queue-element-wise. -/
theorem measureQ_mono {A B : List Region} :
    ∀ (Q : List Region), (∀ q ∈ Q, ∀ p : Pt, memPt p q → coveredL A p → coveredL B p) →
      measureQ A Q ≤ measureQ B Q := by
  intro Q
  induction Q with
  | nil => intro _; exact Nat.le_refl _
  | cons q Q ih =>
    intro h
    rw [measureQ_cons, measureQ_cons]
    have h1 : (boxFinset q ∩ coveredFinset A).card ≤ (boxFinset q ∩ coveredFinset B).card := by
      refine Finset.card_le_card ?_
      intro p hp
      rw [Finset.mem_inter, mem_boxFinset, mem_coveredFinset] at hp ⊢
      exact ⟨hp.1, h q (List.mem_cons_self q Q) p hp.1 hp.2⟩
    have h2 := ih (fun q' hq' => h q' (List.mem_cons_of_mem q hq'))
    omega

/-- With fuel exceeding the potential `28 * measure + |Q|`, the loop returns. -/
theorem addLoop_terminates (D : Region) (b : Bool) :
    ∀ (n : Nat) (self : Region) (Q : List Region),
      self.«on» = false → StoredInv D self.sub_regions → QueueInv D b Q →
      28 * measureQ self.sub_regions Q + Q.length ≤ n →
      ∃ root', addLoop self (n + 1) Q = some root' := by
  intro n
  induction n using Nat.strong_induction_on with
  | _ n ihn =>
    intro self Q hself hSt hQu hpot
    cases Q with
    | nil =>
      refine ⟨self, ?_⟩
      rw [addLoop]
    | cons nr rest =>
      obtain ⟨hQp, hQm⟩ := hQu
      obtain ⟨hnrNE, hnrOn, hnrSub, hnrD⟩ := hQm nr (List.mem_cons_self nr rest)
      have hnrRest : ∀ x ∈ rest, DisjointR nr x := (List.pairwise_cons.mp hQp).1
      have hQuRest : QueueInv D b rest :=
        ⟨(List.pairwise_cons.mp hQp).2, fun x hx => hQm x (List.mem_cons_of_mem nr hx)⟩
      obtain ⟨hStP, hStM⟩ := hSt
      set S := self.sub_regions with hSdef
      set subs := S.filter (fun r => ! nr.contains r) with hsubs
      have hsubsSub : ∀ x ∈ subs, x ∈ S := fun x hx => (List.mem_filter.mp hx).1
      have hStSubs : StoredInv D subs :=
        ⟨hStP.sublist (List.filter_sublist S), fun x hx => hStM x (hsubsSub x hx)⟩
      have hcovSubs : ∀ p : Pt, coveredL subs p → coveredL S p :=
        fun p hc => ⟨hc.choose, hsubsSub _ hc.choose_spec.1, hc.choose_spec.2⟩
      have hlen1 : 1 ≤ n := by
        have := hpot
        rw [List.length_cons] at this
        omega
      obtain ⟨m, rfl⟩ : ∃ m, n = m + 1 := ⟨n - 1, by omega⟩
      rw [addLoop]
      dsimp only
      cases hfi : findIntersect subs nr with
      | none =>
        have hnone := findIntersect_none hfi
        -- both branches recurse on `subs`-based states with a smaller potential
        by_cases hcond : (nr.«on» != self.«on») = true
        · rw [if_pos hcond]
          have hb : b = true := by
            rw [hself, hnrOn] at hcond
            revert hcond
            cases b <;> simp
          have hStNew : StoredInv D (subs ++ [nr]) := by
            refine ⟨?_, ?_⟩
            · rw [List.pairwise_append]
              refine ⟨hStSubs.1, List.pairwise_singleton _ _, ?_⟩
              intro x hx y hy
              rcases List.mem_singleton.mp hy with rfl
              exact disjoint_of_not_intersects (hnone x hx)
            · intro x hx
              rcases List.mem_append.mp hx with hx | hx
              · exact hStSubs.2 x hx
              · rcases List.mem_singleton.mp hx with rfl
                exact ⟨hnrNE, by rw [hnrOn, hb], hnrSub, hnrD⟩
          have hmeas : measureQ (subs ++ [nr]) rest ≤ measureQ S rest := by
            refine measureQ_mono rest ?_
            intro q hq p hp hcov
            rw [coveredL_append, coveredL_cons, coveredL_nil] at hcov
            rcases hcov with hcov | hcov
            · exact hcovSubs p hcov
            · rcases hcov with hm | hf
              · exact absurd ⟨hm, hp⟩ (hnrRest q hq p)
              · cases hf
          obtain ⟨root', hroot'⟩ :=
            ihn m (by omega) (Region.mk self.«on» self.xr self.yr self.zr (subs ++ [nr]))
              rest (by rw [Region.on_mk]; exact hself)
              (by rw [Region.sub_regions_mk]; exact hStNew) hQuRest
              (by
                rw [Region.sub_regions_mk]
                rw [measureQ_cons, List.length_cons] at hpot
                have := measureQ_mono (A := S) (B := S) rest (fun q hq p hp h => h)
                omega)
          exact ⟨root', hroot'⟩
        · rw [if_neg hcond]
          have hmeas : measureQ subs rest ≤ measureQ S rest := by
            refine measureQ_mono rest ?_
            intro q hq p hp hcov
            exact hcovSubs p hcov
          obtain ⟨root', hroot'⟩ :=
            ihn m (by omega) (Region.mk self.«on» self.xr self.yr self.zr subs)
              rest (by rw [Region.on_mk]; exact hself)
              (by rw [Region.sub_regions_mk]; exact hStSubs) hQuRest
              (by
                rw [Region.sub_regions_mk]
                rw [measureQ_cons, List.length_cons] at hpot
                omega)
          exact ⟨root', hroot'⟩
      | some ir =>
        have hfi' : findIntersect subs nr = some (ir.1, ir.2) := hfi
        obtain ⟨pre, post, hdecomp, hidx, hint⟩ := findIntersect_some hfi'
        have hr0mem : ir.2 ∈ subs := by
          rw [hdecomp]
          exact List.mem_append_right pre (List.mem_cons_self _ post)
        obtain ⟨hr0NE, hr0On, hr0Sub, hr0D⟩ := hStSubs.2 ir.2 hr0mem
        obtain ⟨spS, spO, spP1, spP2, spCovO, spCovS, spLen⟩ := split_spec hr0NE hnrNE hint
        have hFragS : ∀ x ∈ (ir.2.split nr).1, NonemptyR x ∧ x.«on» = true ∧
            x.sub_regions = [] ∧ D.contains x = true ∧
            (∀ p : Pt, memPt p x → memPt p ir.2) ∧ DisjointR x nr := by
          intro x hx
          obtain ⟨c, hc, hne, hcr, hnq, rfl⟩ := spS x hx
          refine ⟨(nonemptyR_candToRegion _ c).mpr hne, by rw [candToRegion_on, hr0On],
            candToRegion_subs _ c, ?_, ?_, ?_⟩
          · refine contains_trans hr0D ?_
            rw [contains_candToRegion_on ir.2 (Region.«on» ir.2) false]
            exact hcr
          · intro p hp
            exact cand_sub hcr hp
          · exact cand_not_contains_disjoint_q hr0NE hnrNE hint hc hne hnq _
        have hFragO : ∀ x ∈ (ir.2.split nr).2, NonemptyR x ∧ x.«on» = b ∧
            x.sub_regions = [] ∧ D.contains x = true ∧
            (∀ p : Pt, memPt p x → memPt p nr) := by
          intro x hx
          obtain ⟨c, hc, hne, hcq, rfl⟩ := spO x hx
          refine ⟨(nonemptyR_candToRegion _ c).mpr hne, by rw [candToRegion_on, hnrOn],
            candToRegion_subs _ c, ?_, ?_⟩
          · refine contains_trans hnrD ?_
            rw [contains_candToRegion_on nr (Region.«on» nr) false]
            exact hcq
          · intro p hp
            exact cand_sub hcq hp
        have f1 : ∀ p : Pt, coveredL (ir.2.split nr).2 p ↔ memPt p nr := by
          intro p
          refine ⟨?_, spCovO p⟩
          rintro ⟨x, hx, hm⟩
          exact (hFragO x hx).2.2.2.2 p hm
        have f2 : ∀ p : Pt, coveredL (ir.2.split nr).1 p ↔
            (memPt p ir.2 ∧ ¬ memPt p nr) := by
          intro p
          constructor
          · rintro ⟨x, hx, hm⟩
            exact ⟨(hFragS x hx).2.2.2.2.1 p hm, fun hpn => (hFragS x hx).2.2.2.2.2 p ⟨hm, hpn⟩⟩
          · rintro ⟨hp1, hp2⟩
            exact spCovS p hp1 hp2
        have hS2eq : (subs ++ (ir.2.split nr).1).eraseIdx ir.1 =
            pre ++ (post ++ (ir.2.split nr).1) := by
          rw [hdecomp, hidx, List.append_assoc, List.cons_append]
          exact eraseIdx_at pre ir.2 (post ++ (ir.2.split nr).1)
        have hprepost : (pre ++ post).Pairwise DisjointR := by
          refine (hStSubs.1).sublist ?_
          rw [hdecomp]
          exact List.Sublist.append_left (List.sublist_cons_self ir.2 post) pre
        have hpivot : ∀ x ∈ pre ++ post, DisjointR x ir.2 := by
          have hp2 := hStSubs.1
          rw [hdecomp, List.pairwise_append] at hp2
          intro x hx
          rcases List.mem_append.mp hx with hx | hx
          · exact hp2.2.2 x hx ir.2 (List.mem_cons_self _ post)
          · exact ((List.pairwise_cons.mp hp2.2.1).1 x hx).symm
        have hStNew : StoredInv D (pre ++ (post ++ (ir.2.split nr).1)) := by
          refine ⟨?_, ?_⟩
          · have hpp : (pre ++ post).Pairwise DisjointR := hprepost
            rw [List.pairwise_append] at hpp ⊢
            refine ⟨hpp.1, ?_, ?_⟩
            · rw [List.pairwise_append]
              refine ⟨hpp.2.1, spP1, ?_⟩
              intro x hx y hy
              refine disjoint_mono_right (hpivot x (List.mem_append_right pre hx)) ?_
              exact (hFragS y hy).2.2.2.2.1
            · intro x hx y hy
              rcases List.mem_append.mp hy with hy | hy
              · exact hpp.2.2 x hx y hy
              · refine disjoint_mono_right (hpivot x (List.mem_append_left post hx)) ?_
                exact (hFragS y hy).2.2.2.2.1
          · intro x hx
            rcases List.mem_append.mp hx with hx | hx
            · exact hStSubs.2 x (by rw [hdecomp]; exact List.mem_append_left _ hx)
            · rcases List.mem_append.mp hx with hx | hx
              · exact hStSubs.2 x
                  (by rw [hdecomp]
                      exact List.mem_append_right _ (List.mem_cons_of_mem _ hx))
              · obtain ⟨h1, h2, h3, h4, _⟩ := hFragS x hx
                exact ⟨h1, h2, h3, h4⟩
        have hQuNew : QueueInv D b ((ir.2.split nr).2.reverse ++ rest) := by
          refine ⟨?_, ?_⟩
          · rw [List.pairwise_append]
            refine ⟨?_, (List.pairwise_cons.mp hQp).2, ?_⟩
            · rw [List.pairwise_reverse]
              exact spP2.imp (fun h => h.symm)
            · intro x hx y hy
              rw [List.mem_reverse] at hx
              exact fun p hp => hnrRest y hy p ⟨(hFragO x hx).2.2.2.2 p hp.1, hp.2⟩
          · intro x hx
            rcases List.mem_append.mp hx with hx | hx
            · rw [List.mem_reverse] at hx
              obtain ⟨h1, h2, h3, h4, _⟩ := hFragO x hx
              exact ⟨h1, h2, h3, h4⟩
            · exact hQuRest.2 x hx
        -- the coverage of the new stored list, pointwise
        have hcovS2 : ∀ p : Pt, coveredL (pre ++ (post ++ (ir.2.split nr).1)) p ↔
            (coveredL pre p ∨ coveredL post p ∨ (memPt p ir.2 ∧ ¬ memPt p nr)) := by
          intro p
          rw [coveredL_append, coveredL_append, f2 p]
        -- measure bookkeeping
        have hcf2 : coveredFinset (ir.2.split nr).2 = boxFinset nr := by
          apply Finset.ext
          intro p
          rw [mem_coveredFinset, mem_boxFinset]
          exact f1 p
        set S2 := pre ++ (post ++ (ir.2.split nr).1) with hS2def
        set ov := boxFinset ir.2 ∩ boxFinset nr with hovdef
        have hOvSubNr : ov ⊆ boxFinset nr ∩ coveredFinset subs := by
          intro p hp
          rw [hovdef, Finset.mem_inter] at hp
          rw [Finset.mem_inter, mem_coveredFinset]
          refine ⟨hp.2, ?_⟩
          rw [mem_boxFinset] at hp
          exact ⟨ir.2, hr0mem, hp.1⟩
        have hOvNE : 1 ≤ ov.card := by
          obtain ⟨p, hp1, hp2⟩ := exists_common_of_intersects hr0NE hnrNE hint
          refine Finset.card_pos.mpr ⟨p, ?_⟩
          rw [hovdef, Finset.mem_inter, mem_boxFinset, mem_boxFinset]
          exact ⟨hp1, hp2⟩
        have hheadS2 : boxFinset nr ∩ coveredFinset S2 ⊆
            (boxFinset nr ∩ coveredFinset subs) \ ov := by
          intro p hp
          rw [Finset.mem_inter, mem_boxFinset, mem_coveredFinset] at hp
          obtain ⟨hpn, hpcov⟩ := hp
          rw [hcovS2 p] at hpcov
          have hppp : coveredL pre p ∨ coveredL post p := by
            rcases hpcov with h | h | h
            · exact Or.inl h
            · exact Or.inr h
            · exact absurd hpn h.2
          have hnr0 : ¬ memPt p ir.2 := by
            intro hcon
            rcases hppp with ⟨x, hx, hm⟩ | ⟨x, hx, hm⟩
            · exact hpivot x (List.mem_append_left post hx) p ⟨hm, hcon⟩
            · exact hpivot x (List.mem_append_right pre hx) p ⟨hm, hcon⟩
          rw [Finset.mem_sdiff, Finset.mem_inter, mem_boxFinset, mem_coveredFinset]
          refine ⟨⟨hpn, ?_⟩, ?_⟩
          · rcases hppp with ⟨x, hx, hm⟩ | ⟨x, hx, hm⟩
            · refine ⟨x, ?_, hm⟩
              rw [hdecomp]
              exact List.mem_append_left _ hx
            · refine ⟨x, ?_, hm⟩
              rw [hdecomp]
              exact List.mem_append_right _ (List.mem_cons_of_mem _ hx)
          · rw [hovdef, Finset.mem_inter, mem_boxFinset]
            intro hcon
            exact hnr0 hcon.1
        have hsum2 : measureQ S2 ((ir.2.split nr).2.reverse ++ rest) ≤
            measureQ S (nr :: rest) - 1 := by
          have e1 : measureQ S2 ((ir.2.split nr).2.reverse ++ rest) =
              measureQ S2 (ir.2.split nr).2.reverse + measureQ S2 rest := by
            unfold measureQ
            rw [List.map_append, List.sum_append]
          have e2 : measureQ S2 (ir.2.split nr).2.reverse =
              measureQ S2 (ir.2.split nr).2 := by
            unfold measureQ
            rw [List.map_reverse, List.sum_reverse]
          have e3 : measureQ S2 (ir.2.split nr).2 =
              ((coveredFinset (ir.2.split nr).2) ∩ (coveredFinset S2)).card :=
            sum_inter_card (coveredFinset S2) (ir.2.split nr).2 spP2
          have e4 : ((coveredFinset (ir.2.split nr).2) ∩ (coveredFinset S2)).card ≤
              (boxFinset nr ∩ coveredFinset subs).card - ov.card := by
            rw [hcf2]
            have h1 : (boxFinset nr ∩ coveredFinset S2).card ≤
                ((boxFinset nr ∩ coveredFinset subs) \ ov).card :=
              Finset.card_le_card hheadS2
            rw [Finset.card_sdiff hOvSubNr] at h1
            exact h1
          have e5 : measureQ S2 rest ≤ measureQ S rest := by
            refine measureQ_mono rest ?_
            intro q hq p hp hcov
            rw [hcovS2 p] at hcov
            refine hcovSubs p ?_
            rw [hdecomp, coveredL_append, coveredL_cons]
            rcases hcov with h | h | h
            · exact Or.inl h
            · exact Or.inr (Or.inr h)
            · exact Or.inr (Or.inl h.1)
          have e6 : (boxFinset nr ∩ coveredFinset subs).card ≤
              (boxFinset nr ∩ coveredFinset S).card := by
            refine Finset.card_le_card ?_
            refine Finset.inter_subset_inter (Finset.Subset.refl _) ?_
            exact coveredFinset_subset hcovSubs
          have e7 : ov.card ≤ (boxFinset nr ∩ coveredFinset subs).card :=
            Finset.card_le_card hOvSubNr
          rw [measureQ_cons]
          omega
        have hlen2 : ((ir.2.split nr).2.reverse ++ rest).length ≤ 27 + rest.length := by
          rw [List.length_append, List.length_reverse]
          omega
        have hM1 : 1 ≤ measureQ S (nr :: rest) := by
          rw [measureQ_cons]
          have : ov.card ≤ (boxFinset nr ∩ coveredFinset subs).card :=
            Finset.card_le_card hOvSubNr
          have h6 : (boxFinset nr ∩ coveredFinset subs).card ≤
              (boxFinset nr ∩ coveredFinset S).card := by
            refine Finset.card_le_card ?_
            refine Finset.inter_subset_inter (Finset.Subset.refl _) ?_
            exact coveredFinset_subset hcovSubs
          omega
        obtain ⟨root', hroot'⟩ :=
          ihn m (by omega)
            (Region.mk self.«on» self.xr self.yr self.zr S2)
            ((ir.2.split nr).2.reverse ++ rest)
            (by rw [Region.on_mk]; exact hself)
            (by rw [Region.sub_regions_mk]; exact hStNew) hQuNew
            (by
              rw [Region.sub_regions_mk]
              rw [List.length_cons] at hpot
              omega)
        refine ⟨root', ?_⟩
        dsimp only
        rw [hS2eq]
        exact hroot'


/-! ### Executing command sequences: last-command-wins semantics -/

/-- The cube `p` lies in the command's box (spec-side test, decidable). -/
def ptInCmd (p : Pt) (c : Command) : Bool :=
  decide (memPt p (Region.from_command c))

/-- Last-command-wins update of a cube's state along a command list. -/
def stepOn (p : Pt) : Bool → List Command → Bool
  | i, [] => i
  | i, c :: cs => stepOn p (if ptInCmd p c then c.turn_on else i) cs

/-- The final state of a cube under last-command-wins semantics (spec-side
brute-force definition, starting from everything off). -/
def lastWins (cmds : List Command) (p : Pt) : Bool :=
  stepOn p false cmds

theorem stepOn_append (p : Pt) : ∀ (xs ys : List Command) (i : Bool),
    stepOn p i (xs ++ ys) = stepOn p (stepOn p i xs) ys := by
  intro xs
  induction xs with
  | nil => intro ys i; rfl
  | cons x xs ih =>
    intro ys i
    rw [List.cons_append, stepOn, stepOn]
    exact ih ys _

/-- A well-formed command relative to a bounding region `B`: proper ranges,
box inside `B`. -/
def CommandWF (B : Region) (c : Command) : Prop :=
  c.xr.1 ≤ c.xr.2 ∧ c.yr.1 ≤ c.yr.2 ∧ c.zr.1 ≤ c.zr.2 ∧
  B.contains (Region.from_command c) = true

instance (B : Region) (c : Command) : Decidable (CommandWF B c) := by
  unfold CommandWF
  infer_instance

/-- The command fold of `execCommands`, generalized over the start root. -/
def execFrom (fuel : Nat) : Region → List Command → Option Region
  | root, [] => some root
  | root, c :: cs =>
    (Region.add_region root (Region.from_command c) fuel).bind (fun r => execFrom fuel r cs)

theorem execFrom_foldlM (fuel : Nat) :
    ∀ (cmds : List Command) (root : Region),
      cmds.foldlM
        (fun (root : Region) (c : Command) => root.add_region (Region.from_command c) fuel)
        root = execFrom fuel root cmds := by
  intro cmds
  induction cmds with
  | nil => intro root; rfl
  | cons c cs ih =>
    intro root
    rw [List.foldlM_cons, execFrom]
    cases h : Region.add_region root (Region.from_command c) fuel with
    | none => rfl
    | some r => exact ih r

theorem execCommands_eq_execFrom (fuel : Nat) (cmds : List Command) :
    execCommands fuel cmds = execFrom fuel RegionTrie.new cmds := by
  rw [execCommands]
  exact execFrom_foldlM fuel cmds RegionTrie.new

/-- Running the commands from a valid state succeeds with enough fuel and
updates the covered cubes by last-command-wins. -/
theorem execFrom_spec (B : Region) :
    ∀ (cmds : List Command) (root : Region) (g : Pt → Bool),
      root.«on» = false → StoredInv B root.sub_regions →
      (∀ c ∈ cmds, CommandWF B c) →
      (∀ p : Pt, coveredL root.sub_regions p ↔ g p = true) →
      ∃ fuel : Nat, ∀ fuel', fuel ≤ fuel' → ∃ root2,
        execFrom fuel' root cmds = some root2 ∧ root2.«on» = false ∧
        StoredInv B root2.sub_regions ∧
        (∀ p : Pt, coveredL root2.sub_regions p ↔ stepOn p (g p) cmds = true) := by
  intro cmds
  induction cmds with
  | nil =>
    intro root g hroot hSt _ hcov
    refine ⟨0, fun fuel' _ => ⟨root, ?_, hroot, hSt, ?_⟩⟩
    · rw [execFrom]
    · intro p
      rw [stepOn]
      exact hcov p
  | cons c cs ih =>
    intro root g hroot hSt hwf hcov
    have hcwf := hwf c (List.mem_cons_self c cs)
    have hfcNE : NonemptyR (Region.from_command c) :=
      ⟨hcwf.1, hcwf.2.1, hcwf.2.2.1⟩
    have hQu : QueueInv B c.turn_on [Region.from_command c] := by
      refine ⟨List.pairwise_singleton _ _, ?_⟩
      intro x hx
      rcases List.mem_singleton.mp hx with rfl
      exact ⟨hfcNE, rfl, rfl, hcwf.2.2.2⟩
    obtain ⟨root1, hroot1⟩ :=
      addLoop_terminates B c.turn_on
        (28 * measureQ root.sub_regions [Region.from_command c] + 1)
        root [Region.from_command c] hroot hSt hQu (by simp)
    obtain ⟨h1, h2, h3, h4, h5, h6⟩ :=
      addLoop_spec B c.turn_on
        (28 * measureQ root.sub_regions [Region.from_command c] + 1 + 1)
        root [Region.from_command c] root1 hroot hSt hQu hroot1
    have hcov1 : ∀ p : Pt, coveredL root1.sub_regions p ↔
        (fun q => if ptInCmd q c then c.turn_on else g q) p = true := by
      intro p
      rw [h6 p, coveredL_cons, coveredL_nil]
      dsimp only
      by_cases hm : memPt p (Region.from_command c)
      · rw [if_pos (show ptInCmd p c = true from decide_eq_true hm)]
        constructor
        · rintro (⟨_, hn⟩ | ⟨hb, _⟩)
          · exact absurd (Or.inl hm) hn
          · exact hb
        · intro hb
          exact Or.inr ⟨hb, Or.inl hm⟩
      · rw [if_neg (show ¬ ptInCmd p c = true from fun h => hm (of_decide_eq_true h))]
        rw [← hcov p]
        constructor
        · rintro (⟨hc1, _⟩ | ⟨_, hm2 | hf⟩)
          · exact hc1
          · exact absurd hm2 hm
          · exact hf.elim
        · intro hc1
          refine Or.inl ⟨hc1, ?_⟩
          rintro (hm2 | hf)
          · exact hm hm2
          · exact hf
    obtain ⟨fuel1, hf1⟩ :=
      ih root1 (fun q => if ptInCmd q c then c.turn_on else g q) h1 h5
        (fun x hx => hwf x (List.mem_cons_of_mem c hx)) hcov1
    refine ⟨max (28 * measureQ root.sub_regions [Region.from_command c] + 1 + 1) fuel1,
      fun fuel' hle => ?_⟩
    obtain ⟨root2, hexec2, hon2, hSt2, hcov2⟩ := hf1 fuel' (le_trans (le_max_right _ _) hle)
    refine ⟨root2, ?_, hon2, hSt2, ?_⟩
    · rw [execFrom]
      have hstep : Region.add_region root (Region.from_command c) fuel' = some root1 := by
        rw [Region.add_region]
        exact addLoop_mono _ fuel' root [Region.from_command c] root1
          (le_trans (le_max_left _ _) hle) hroot1
      rw [hstep]
      exact hexec2
    · intro p
      rw [stepOn]
      exact hcov2 p

/-- With enough fuel, `execCommands` of well-formed commands succeeds, keeps
the stored invariant, and `count_on` counts the brute-force cubes. -/
theorem exec_count (B : Region) (cmds : List Command) (hB : SmallBox B)
    (hwf : ∀ c ∈ cmds, CommandWF B c) :
    ∃ fuel : Nat, ∀ fuel', fuel ≤ fuel' → ∃ root,
      execCommands fuel' cmds = some root ∧ root.«on» = false ∧
      StoredInv B root.sub_regions ∧
      (∀ p : Pt, coveredL root.sub_regions p ↔ lastWins cmds p = true) ∧
      count_on root =
        (((boxFinset B).filter (fun p => lastWins cmds p = true)).card : Int) := by
  obtain ⟨fuel, hf⟩ :=
    execFrom_spec B cmds RegionTrie.new (fun _ => false) rfl
      ⟨List.Pairwise.nil, fun x hx => absurd hx (List.not_mem_nil x)⟩ hwf
      (by
        intro p
        rw [show RegionTrie.new.sub_regions = ([] : List Region) from rfl, coveredL_nil]
        simp)
  refine ⟨fuel, fun fuel' hle => ?_⟩
  obtain ⟨root, hexec, hon, hSt, hcov⟩ := hf fuel' hle
  have hcovL : ∀ p : Pt, coveredL root.sub_regions p ↔ lastWins cmds p = true :=
    fun p => hcov p
  have hfil : coveredFinset root.sub_regions =
      (boxFinset B).filter (fun p => lastWins cmds p = true) := by
    apply Finset.ext
    intro p
    rw [mem_coveredFinset, Finset.mem_filter, mem_boxFinset]
    constructor
    · intro hc
      refine ⟨?_, (hcovL p).mp hc⟩
      obtain ⟨x, hx, hm⟩ := hc
      exact memPt_of_contains (hSt.2 x hx).2.2.2 hm
    · rintro ⟨_, hl⟩
      exact (hcovL p).mpr hl
  refine ⟨root, ?_, hon, hSt, hcovL, ?_⟩
  · rw [execCommands_eq_execFrom]
    exact hexec
  · rw [count_on_eq_card hB hSt, hfil]

theorem pairwise_imp_mem {R S : Region → Region → Prop} :
    ∀ {l : List Region}, (∀ a ∈ l, ∀ b ∈ l, R a b → S a b) → l.Pairwise R → l.Pairwise S := by
  intro l
  induction l with
  | nil => intro _ _; exact List.Pairwise.nil
  | cons x xs ih =>
    intro h hp
    rw [List.pairwise_cons] at hp ⊢
    refine ⟨fun y hy => h x (List.mem_cons_self x xs) y (List.mem_cons_of_mem x hy)
      (hp.1 y hy), ?_⟩
    exact ih (fun a ha b hb => h a (List.mem_cons_of_mem x ha) b (List.mem_cons_of_mem x hb))
      hp.2

/-- **C1.** For every sequence of commands with well-formed boxes inside a
small bounded domain `B`, executing them in order on a fresh engine and
calling `count_on` returns exactly the number of unit cubes of the bounded
domain whose final state is on under last-command-wins semantics, as
computed by brute-force enumeration (a filtered cube count over `B`). -/
theorem c1_count_on_matches_bruteforce (B : Region) (cmds : List Command)
    (hB : SmallBox B) (hwf : ∀ c ∈ cmds, CommandWF B c) :
    ∃ (fuel : Nat) (root : Region), execCommands fuel cmds = some root ∧
      count_on root =
        (((boxFinset B).filter (fun p => lastWins cmds p = true)).card : Int) := by
  obtain ⟨fuel, hf⟩ := exec_count B cmds hB hwf
  obtain ⟨root, hexec, _, _, _, hcount⟩ := hf fuel (Nat.le_refl fuel)
  exact ⟨fuel, root, hexec, hcount⟩

/-- Witness for C1 at a concrete bounded domain and command list. -/
theorem c1_witness :
    SmallBox (Region.mk false (-4, 4) (-4, 4) (-4, 4) []) ∧
    (∀ c ∈ ([⟨(0, 1), (0, 1), (0, 1), true⟩, ⟨(1, 1), (1, 1), (1, 1), false⟩] : List Command),
      CommandWF (Region.mk false (-4, 4) (-4, 4) (-4, 4) []) c) ∧
    (∃ (fuel : Nat) (root : Region),
      execCommands fuel
        ([⟨(0, 1), (0, 1), (0, 1), true⟩, ⟨(1, 1), (1, 1), (1, 1), false⟩] : List Command) =
        some root ∧
      count_on root =
        (((boxFinset (Region.mk false (-4, 4) (-4, 4) (-4, 4) [])).filter
          (fun p => lastWins
            ([⟨(0, 1), (0, 1), (0, 1), true⟩, ⟨(1, 1), (1, 1), (1, 1), false⟩] : List Command)
            p = true)).card : Int)) :=
  ⟨by decide, by decide,
    c1_count_on_matches_bruteforce (Region.mk false (-4, 4) (-4, 4) (-4, 4) [])
      ([⟨(0, 1), (0, 1), (0, 1), true⟩, ⟨(1, 1), (1, 1), (1, 1), false⟩] : List Command)
      (by decide) (by decide)⟩

/-- **C2 (amended).** For every sequence of commands with well-formed boxes
inside a small bounded domain, after executing all insertions the sub-regions
stored in the root's child list are pairwise non-intersecting, and every
child is childless (so deeper nodes hold no siblings at all). -/
theorem c2_amended_sibling_disjointness (B : Region) (cmds : List Command)
    (hB : SmallBox B) (hwf : ∀ c ∈ cmds, CommandWF B c) :
    ∃ (fuel : Nat) (root : Region), execCommands fuel cmds = some root ∧
      root.sub_regions.Pairwise (fun a b => a.intersects b = false) ∧
      (∀ x ∈ root.sub_regions, x.sub_regions = []) := by
  obtain ⟨fuel, hf⟩ := exec_count B cmds hB hwf
  obtain ⟨root, hexec, _, hSt, _, _⟩ := hf fuel (Nat.le_refl fuel)
  refine ⟨fuel, root, hexec, ?_, fun x hx => (hSt.2 x hx).2.2.1⟩
  refine pairwise_imp_mem (fun a ha b hb hD => ?_) hSt.1
  cases hi : a.intersects b
  · rfl
  · obtain ⟨p, hpa, hpb⟩ :=
      exists_common_of_intersects (hSt.2 a ha).1 (hSt.2 b hb).1 hi
    exact absurd ⟨hpa, hpb⟩ (hD p)

/-- Witness for the amended C2 at a concrete command list with two
overlapping boxes. -/
theorem c2_amended_witness :
    SmallBox (Region.mk false (-6, 6) (-6, 6) (-6, 6) []) ∧
    (∀ c ∈ ([⟨(0, 3), (0, 3), (0, 3), true⟩, ⟨(2, 5), (2, 5), (2, 5), true⟩] : List Command),
      CommandWF (Region.mk false (-6, 6) (-6, 6) (-6, 6) []) c) ∧
    (∃ (fuel : Nat) (root : Region),
      execCommands fuel
        ([⟨(0, 3), (0, 3), (0, 3), true⟩, ⟨(2, 5), (2, 5), (2, 5), true⟩] : List Command) =
        some root ∧
      root.sub_regions.Pairwise (fun a b => a.intersects b = false) ∧
      (∀ x ∈ root.sub_regions, x.sub_regions = [])) :=
  ⟨by decide, by decide,
    c2_amended_sibling_disjointness (Region.mk false (-6, 6) (-6, 6) (-6, 6) [])
      ([⟨(0, 3), (0, 3), (0, 3), true⟩, ⟨(2, 5), (2, 5), (2, 5), true⟩] : List Command)
      (by decide) (by decide)⟩

/-- **C6.** If after a command sequence the box of an `on` command `c` is
already fully on (every cube of the box ends on under last-command-wins),
then re-inserting `c` leaves `count_on` unchanged. -/
theorem c6_idempotent_reinsert (B : Region) (cmds : List Command) (c : Command)
    (hB : SmallBox B) (hwf : ∀ x ∈ cmds, CommandWF B x) (hc : CommandWF B c)
    (hon : c.turn_on = true)
    (hfull : ∀ p : Pt, memPt p (Region.from_command c) → lastWins cmds p = true) :
    ∃ (fuel : Nat) (root root2 : Region),
      execCommands fuel cmds = some root ∧
      execCommands fuel (cmds ++ [c]) = some root2 ∧
      count_on root2 = count_on root := by
  have hwf2 : ∀ x ∈ cmds ++ [c], CommandWF B x := by
    intro x hx
    rcases List.mem_append.mp hx with hx | hx
    · exact hwf x hx
    · rcases List.mem_singleton.mp hx with rfl
      exact hc
  obtain ⟨f1, hf1⟩ := exec_count B cmds hB hwf
  obtain ⟨f2, hf2⟩ := exec_count B (cmds ++ [c]) hB hwf2
  obtain ⟨root, hexec1, _, _, _, hcount1⟩ := hf1 (max f1 f2) (le_max_left _ _)
  obtain ⟨root2, hexec2, _, _, _, hcount2⟩ := hf2 (max f1 f2) (le_max_right _ _)
  have hsame : ∀ p : Pt, lastWins (cmds ++ [c]) p = lastWins cmds p := by
    intro p
    unfold lastWins
    rw [stepOn_append, stepOn, stepOn]
    cases hd : ptInCmd p c
    · rw [if_neg Bool.false_ne_true]
    · rw [if_pos (rfl : (true : Bool) = true), hon]
      exact (hfull p (of_decide_eq_true hd)).symm
  have hfil : (boxFinset B).filter (fun p => lastWins (cmds ++ [c]) p = true) =
      (boxFinset B).filter (fun p => lastWins cmds p = true) := by
    apply Finset.filter_congr
    intro p _
    rw [hsame p]
  refine ⟨max f1 f2, root, root2, hexec1, hexec2, ?_⟩
  rw [hcount1, hcount2, hfil]

/-- Witness for C6: a single `on` unit cube, re-inserted identically. -/
theorem c6_witness :
    SmallBox (Region.mk false (-4, 4) (-4, 4) (-4, 4) []) ∧
    (∀ x ∈ ([⟨(0, 0), (0, 0), (0, 0), true⟩] : List Command),
      CommandWF (Region.mk false (-4, 4) (-4, 4) (-4, 4) []) x) ∧
    CommandWF (Region.mk false (-4, 4) (-4, 4) (-4, 4) [])
      ⟨(0, 0), (0, 0), (0, 0), true⟩ ∧
    (⟨(0, 0), (0, 0), (0, 0), true⟩ : Command).turn_on = true ∧
    (∀ p : Pt, memPt p (Region.from_command ⟨(0, 0), (0, 0), (0, 0), true⟩) →
      lastWins ([⟨(0, 0), (0, 0), (0, 0), true⟩] : List Command) p = true) ∧
    (∃ (fuel : Nat) (root root2 : Region),
      execCommands fuel ([⟨(0, 0), (0, 0), (0, 0), true⟩] : List Command) = some root ∧
      execCommands fuel (([⟨(0, 0), (0, 0), (0, 0), true⟩] : List Command) ++
        [⟨(0, 0), (0, 0), (0, 0), true⟩]) = some root2 ∧
      count_on root2 = count_on root) := by
  have hfull : ∀ p : Pt, memPt p (Region.from_command ⟨(0, 0), (0, 0), (0, 0), true⟩) →
      lastWins ([⟨(0, 0), (0, 0), (0, 0), true⟩] : List Command) p = true := by
    intro p hp
    show (if ptInCmd p ⟨(0, 0), (0, 0), (0, 0), true⟩
        then (⟨(0, 0), (0, 0), (0, 0), true⟩ : Command).turn_on else false) = true
    rw [if_pos (show ptInCmd p ⟨(0, 0), (0, 0), (0, 0), true⟩ = true from decide_eq_true hp)]
  exact ⟨by decide, by decide, by decide, rfl, hfull,
    c6_idempotent_reinsert (Region.mk false (-4, 4) (-4, 4) (-4, 4) [])
      ([⟨(0, 0), (0, 0), (0, 0), true⟩] : List Command) ⟨(0, 0), (0, 0), (0, 0), true⟩
      (by decide) (by decide) (by decide) rfl hfull⟩

/-- **C9 (amended).** For every sequence of commands with well-formed boxes
inside a small bounded domain, after executing all insertions every stored
region has non-negative volume and `count_on` is non-negative. -/
theorem c9_amended_nonnegative (B : Region) (cmds : List Command)
    (hB : SmallBox B) (hwf : ∀ c ∈ cmds, CommandWF B c) :
    ∃ (fuel : Nat) (root : Region), execCommands fuel cmds = some root ∧
      (∀ x ∈ root.sub_regions, 0 ≤ x.volume) ∧ 0 ≤ count_on root := by
  obtain ⟨fuel, hf⟩ := exec_count B cmds hB hwf
  obtain ⟨root, hexec, _, hSt, _, hcount⟩ := hf fuel (Nat.le_refl fuel)
  refine ⟨fuel, root, hexec, ?_, ?_⟩
  · intro x hx
    obtain ⟨hNE, _, hsub, hD⟩ := hSt.2 x hx
    have hW := not_world_of_bounded hB hD
    obtain ⟨b, xr, yr, zr, subs⟩ := x
    rw [Region.sub_regions_mk] at hsub
    subst hsub
    rw [volume_leaf, hW]
    rw [if_neg (by simp)]
    rw [← card_boxFinset hNE]
    exact Int.natCast_nonneg _
  · rw [hcount]
    exact Int.natCast_nonneg _

/-- Witness for the amended C9 at a concrete command list including an
`off` command. -/
theorem c9_amended_witness :
    SmallBox (Region.mk false (-8, 8) (-8, 8) (-8, 8) []) ∧
    (∀ c ∈ ([⟨(0, 2), (0, 2), (0, 2), true⟩, ⟨(1, 1), (1, 1), (1, 1), false⟩] : List Command),
      CommandWF (Region.mk false (-8, 8) (-8, 8) (-8, 8) []) c) ∧
    (∃ (fuel : Nat) (root : Region),
      execCommands fuel
        ([⟨(0, 2), (0, 2), (0, 2), true⟩, ⟨(1, 1), (1, 1), (1, 1), false⟩] : List Command) =
        some root ∧
      (∀ x ∈ root.sub_regions, 0 ≤ x.volume) ∧ 0 ≤ count_on root) :=
  ⟨by decide, by decide,
    c9_amended_nonnegative (Region.mk false (-8, 8) (-8, 8) (-8, 8) [])
      ([⟨(0, 2), (0, 2), (0, 2), true⟩, ⟨(1, 1), (1, 1), (1, 1), false⟩] : List Command)
      (by decide) (by decide)⟩

end Day22
